import Mathlib

/-!
# Verification of the discrete-nes schematic verifier

Shallow embedding, in Lean 4, of the geometry / connectivity checks of

* src/shared/python/kicad_gen/verify.py
* src/boards/ram-prototype/scripts/verify_schematics.py

The two files contain textually identical copies of the check functions
(the board script additionally has check_netlist and main); each Lean
definition embeds both copies at once.

Conventions of the embedding:

* Python floats are modelled as exact rationals (ℚ).  All comparisons in
  the source are order comparisons and additions/subtractions, which ℚ
  models exactly.
* A Python `dict` is modelled as an association list built in insertion
  order, with the same key-update semantics (updating an existing key
  keeps its position, a new key is appended) — this matches CPython's
  documented dict-ordering behaviour.
* A Python `set` is modelled as a deduplicated list; only membership in
  it is ever observed by the embedded code.
* Issue *strings* are modelled as structures carrying exactly the data
  that the Python format strings interpolate.
* `round(v, 2)` (the `snap` helper) is Python's round-half-to-even,
  modelled at decimal precision.
-/

namespace DiscreteNes

/-- mm tolerance for coordinate comparison (`TOLERANCE = 0.0001`). -/
def TOL : ℚ := 1 / 10000

/-- Python's `abs()` on an exact rational. -/
def pabs (q : ℚ) : ℚ := if q < 0 then -q else q

/-- A 2-D point in millimetres. -/
abbrev Pt : Type := ℚ × ℚ

/-- A wire: an (ordered) pair of endpoints. -/
abbrev Wire : Type := Pt × Pt

/-- Round-half-to-even to an integer (Python's `round(x)` on exact values). -/
def rhe (q : ℚ) : ℤ :=
  let n : ℤ := ⌊q⌋
  let r : ℚ := q - n
  if r < 1 / 2 then n
  else if 1 / 2 < r then n + 1
  else if Even n then n else n + 1

/-- `snap(v)`: round to 2 decimal places (`round(v, 2)`),
from verify_schematics.py line 59 / kicad_gen.common. -/
def snap (q : ℚ) : ℚ := (rhe (q * 100) : ℚ) / 100

/-- `pts_close(a, b)`: both coordinates within tolerance. -/
def pts_close (a b : Pt) : Bool :=
  decide (pabs (a.1 - b.1) < TOL) && decide (pabs (a.2 - b.2) < TOL)

/-! ## Exit-code aggregation (verify_schematics.py `main`, claim C2)

`main` accumulates `total_errors` / `total_warnings` from the per-file
check results (lines 1451-1461) and finally returns
`1 if total_issues > 0 else 0` where
`total_issues = total_errors + total_warnings` (lines 1556-1565).
The issue payload type is irrelevant to the tally, so it is a type
parameter. -/

/-- The per-file tally loop of `main` (lines 1451-1461): each result is
`(category, issues, is_error)`; error counts and warning counts are
accumulated separately. -/
def tally {α : Type} (rs : List (String × List α × Bool)) : ℕ × ℕ :=
  rs.foldl
    (fun t r => if r.2.2 then (t.1 + r.2.1.length, t.2) else (t.1, t.2 + r.2.1.length))
    (0, 0)

/-- `main`'s final exit code (lines 1556-1565):
`total_issues = total_errors + total_warnings; return 1 if total_issues > 0 else 0`. -/
def main_exit_code (total_errors total_warnings : ℕ) : ℕ :=
  if 0 < total_errors + total_warnings then 1 else 0

/-! ## Power symbol orientation (`check_power_orientation`, claim C8) -/

/-- A component instance as parsed: `(ref, lib_name, cx, cy, angle)`. -/
structure Comp where
  ref : String
  lib_name : String
  cx : ℚ
  cy : ℚ
  angle : ℚ
deriving DecidableEq, Repr

/-- One issue line of `check_power_orientation`; `dir_up` records whether
the message text says "pointing up" (VCC branch) or "pointing down"
(GND branch). -/
structure PowerIssue where
  ref : String
  lib_name : String
  cx : ℚ
  cy : ℚ
  angle : ℚ
  dir_up : Bool
deriving DecidableEq, Repr

/-- `check_power_orientation` (verify.py 867-881): for each component,
if `lib_name == "VCC" and abs(angle) > TOLERANCE` append a VCC issue,
elif `lib_name == "GND" and abs(angle) > TOLERANCE` append a GND issue. -/
def check_power_orientation (components : List Comp) : List PowerIssue :=
  components.foldl
    (fun issues c =>
      if c.lib_name = "VCC" ∧ TOL < pabs c.angle then
        issues ++ [⟨c.ref, c.lib_name, c.cx, c.cy, c.angle, true⟩]
      else if c.lib_name = "GND" ∧ TOL < pabs c.angle then
        issues ++ [⟨c.ref, c.lib_name, c.cx, c.cy, c.angle, false⟩]
      else issues)
    []

/-- The claim's flagging criterion, written from the claim's words: a
component is flagged iff its library symbol name is exactly "VCC" or
exactly "GND" and its rotation differs from 0 by more than the
tolerance. -/
def power_flagged (c : Comp) : Bool :=
  (decide (c.lib_name = "VCC") || decide (c.lib_name = "GND")) && decide (TOL < pabs c.angle)

/-- The issue record produced for a flagged component. -/
def power_issue_of (c : Comp) : PowerIssue :=
  ⟨c.ref, c.lib_name, c.cx, c.cy, c.angle, c.lib_name = "VCC"⟩

theorem check_power_orientation_acc (components : List Comp) (acc : List PowerIssue) :
    components.foldl
      (fun issues c =>
        if c.lib_name = "VCC" ∧ TOL < pabs c.angle then
          issues ++ [⟨c.ref, c.lib_name, c.cx, c.cy, c.angle, true⟩]
        else if c.lib_name = "GND" ∧ TOL < pabs c.angle then
          issues ++ [⟨c.ref, c.lib_name, c.cx, c.cy, c.angle, false⟩]
        else issues) acc
    = acc ++ components.filterMap
        (fun c => if power_flagged c then some (power_issue_of c) else none) := by
  induction components generalizing acc with
  | nil => simp
  | cons c cs ih =>
    rw [List.foldl_cons]
    by_cases hva : c.lib_name = "VCC" ∧ TOL < pabs c.angle
    · have hflag : (if power_flagged c = true then some (power_issue_of c) else none)
          = some ⟨c.ref, c.lib_name, c.cx, c.cy, c.angle, true⟩ := by
        simp [power_flagged, power_issue_of, hva.1, hva.2]
      rw [if_pos hva, List.filterMap_cons, hflag, ih]
      simp
    · rw [if_neg hva]
      by_cases hga : c.lib_name = "GND" ∧ TOL < pabs c.angle
      · have hvne : ¬ c.lib_name = "VCC" := by
          intro h
          exact hva ⟨h, hga.2⟩
        have hflag : (if power_flagged c = true then some (power_issue_of c) else none)
            = some ⟨c.ref, c.lib_name, c.cx, c.cy, c.angle, false⟩ := by
          simp [power_flagged, power_issue_of, hvne, hga.1, hga.2]
        rw [if_pos hga, List.filterMap_cons, hflag, ih]
        simp
      · have hnot : power_flagged c = false := by
          rw [power_flagged]
          by_cases ha : TOL < pabs c.angle
          · have hv : ¬ c.lib_name = "VCC" := fun h => hva ⟨h, ha⟩
            have hg : ¬ c.lib_name = "GND" := fun h => hga ⟨h, ha⟩
            simp [hv, hg]
          · simp [ha]
        have hflag : (if power_flagged c = true then some (power_issue_of c) else none)
            = none := by
          rw [hnot]
          simp
        rw [if_neg hga, List.filterMap_cons, hflag, ih]

/-! ## Library bbox transform (`_lib_bbox_to_schematic`, claim C6) -/

/-- An axis-aligned bounding box `(min_x, min_y, max_x, max_y)`. -/
abbrev BBox : Type := ℚ × ℚ × ℚ × ℚ

/-- `round(math.cos(math.radians(angle)), 10)` for the right-angle
rotations 0/90/180/270 actually used by the generator (the data model
fixes rotation angles to multiples of 90°; rounding to 10 decimal
places makes the values exactly 1, 0, -1, 0 — e.g.
`round(cos(pi), 10) = -1.0` since `cos(pi) = -1` exactly and
`round(sin(pi), 10) = 0.0` since `|sin(pi)| ≈ 1.2e-16`).  Other angles
do not occur in parsed data and are mapped to the 0° values. -/
def cos10 (a : ℚ) : ℚ :=
  if a = 90 then 0 else if a = 180 then -1 else if a = 270 then 0 else 1

/-- `round(math.sin(math.radians(angle)), 10)` for rotations 0/90/180/270
(see `cos10`). -/
def sin10 (a : ℚ) : ℚ :=
  if a = 90 then 1 else if a = 180 then 0 else if a = 270 then -1 else 0

/-- `min` of a nonempty list (Python's `min(list)`); the `[]` case is
unreachable in the embedded code. -/
def listMin : List ℚ → ℚ
  | [] => 0
  | [a] => a
  | a :: b :: rest => min a (listMin (b :: rest))

/-- `max` of a nonempty list (Python's `max(list)`). -/
def listMax : List ℚ → ℚ
  | [] => 0
  | [a] => a
  | a :: b :: rest => max a (listMax (b :: rest))

/-- `_lib_bbox_to_schematic(lib_bbox, cx, cy, angle)` (verify.py 150-180):
take the four bbox corners in library space (Y-up), negate Y, rotate by
the component angle (CW in schematic Y-down space) with 10-decimal
cos/sin, snap, translate by the center, and re-box. -/
def lib_bbox_to_schematic (lib_bbox : BBox) (cx cy angle : ℚ) : BBox :=
  let lmin_x := lib_bbox.1
  let lmin_y := lib_bbox.2.1
  let lmax_x := lib_bbox.2.2.1
  let lmax_y := lib_bbox.2.2.2
  let corners : List (ℚ × ℚ) :=
    [(lmin_x, lmin_y), (lmax_x, lmin_y), (lmax_x, lmax_y), (lmin_x, lmax_y)]
  let cos_a := cos10 angle
  let sin_a := sin10 angle
  let sx_list := corners.map (fun c => cx + snap (cos_a * c.1 + sin_a * (-c.2)))
  let sy_list := corners.map (fun c => cy + snap (-sin_a * c.1 + cos_a * (-c.2)))
  (listMin sx_list, listMin sy_list, listMax sx_list, listMax sy_list)

/-! ## Wire/bbox intersection (`_wire_segment_intersects_bbox`, claim C7) -/

/-- `_wire_segment_intersects_bbox(x1, y1, x2, y2, bbox)`
(verify.py 213-239 / verify_schematics.py 587-613): true iff the
interior of an orthogonal wire passes through the bbox. -/
def wire_segment_intersects_bbox (x1 y1 x2 y2 : ℚ) (bbox : BBox) : Bool :=
  let bmin_x := bbox.1
  let bmin_y := bbox.2.1
  let bmax_x := bbox.2.2.1
  let bmax_y := bbox.2.2.2
  if pabs (y1 - y2) < TOL then
    let wy := y1
    if wy ≤ bmin_y + TOL ∨ bmax_y - TOL ≤ wy then false
    else
      let wxmin := min x1 x2
      let wxmax := max x1 x2
      decide (wxmin + TOL < bmax_x) && decide (bmin_x < wxmax - TOL)
  else if pabs (x1 - x2) < TOL then
    let wx := x1
    if wx ≤ bmin_x + TOL ∨ bmax_x - TOL ≤ wx then false
    else
      let wymin := min y1 y2
      let wymax := max y1 y2
      decide (wymin + TOL < bmax_y) && decide (bmin_y < wymax - TOL)
  else false

/-! ## Wire overlaps (`check_wire_overlaps`, claims C3 and C10) -/

/-- One entry of the `h_wires` / `v_wires` lists:
`(shared coordinate, range min, range max, wire index)`. -/
structure Seg where
  key : ℚ
  lo : ℚ
  hi : ℚ
  idx : ℕ
deriving DecidableEq, Repr

/-- Python's lexicographic tuple comparison for `segs.sort()` on the
`(min, max, idx)` triples stored in each group. -/
def segLE (a b : Seg) : Bool :=
  decide (a.lo < b.lo) ||
    (decide (a.lo = b.lo) &&
      (decide (a.hi < b.hi) || (decide (a.hi = b.hi) && decide (a.idx ≤ b.idx))))

/-- One issue line of `check_wire_overlaps`; `horiz` records whether the
message is an "H overlap Y=…" or a "V overlap X=…"; the remaining
fields carry the interpolated data of the format string. -/
structure OverlapIssue where
  horiz : Bool
  coord : ℚ
  a_idx : ℕ
  a_min : ℚ
  a_max : ℚ
  b_idx : ℕ
  b_min : ℚ
  b_max : ℚ
  share_lo : ℚ
  share_hi : ℚ
deriving DecidableEq, Repr

/-- The overlap test of the inner double loop:
`overlap_end - overlap_start > TOLERANCE`. -/
def overlapB (a b : Seg) : Bool :=
  decide (TOL < min a.hi b.hi - max a.lo b.lo)

/-- The issue record appended for an overlapping pair. -/
def mkOverlapIssue (horiz : Bool) (key : ℚ) (a b : Seg) : OverlapIssue :=
  ⟨horiz, key, a.idx, a.lo, a.hi, b.idx, b.lo, b.hi, max a.lo b.lo, min a.hi b.hi⟩

/-- The `for i / for j in range(i+1, …)` double loop over one sorted
group: for each element, report its overlaps with all later elements. -/
def groupIssues (horiz : Bool) (key : ℚ) : List Seg → List OverlapIssue
  | [] => []
  | a :: rest =>
    rest.filterMap (fun b => if overlapB a b then some (mkOverlapIssue horiz key a b) else none)
      ++ groupIssues horiz key rest

/-- `defaultdict(list)` update: append to an existing key's list (the key
keeps its position) or append a fresh key at the end. -/
def addToGroup {κ β : Type} [DecidableEq κ] (gs : List (κ × List β)) (k : κ) (v : β) :
    List (κ × List β) :=
  if gs.any (fun g => decide (g.1 = k)) then
    gs.map (fun g => if g.1 = k then (g.1, g.2 ++ [v]) else g)
  else gs ++ [(k, [v])]

/-- Build a `defaultdict(list)` grouping of a list, in iteration order. -/
def groupBy {α κ β : Type} [DecidableEq κ] (key : α → κ) (val : α → β) (l : List α) :
    List (κ × List β) :=
  l.foldl (fun gs a => addToGroup gs (key a) (val a)) []

/-- The horizontal-wire test of the source: `abs(y1 - y2) < TOLERANCE`. -/
def horizB (w : Wire) : Bool := decide (pabs (w.1.2 - w.2.2) < TOL)

/-- The vertical-wire test (the `elif` branch):
not horizontal and `abs(x1 - x2) < TOLERANCE`. -/
def vertB (w : Wire) : Bool := !horizB w && decide (pabs (w.1.1 - w.2.1) < TOL)

/-- The `h_wires` list: `(snap(y1), min(x1,x2), max(x1,x2), idx)` for
every horizontal wire, in input order. -/
def h_wires (wires : List Wire) : List Seg :=
  wires.enum.filterMap (fun iw =>
    if horizB iw.2 then
      some ⟨snap iw.2.1.2, min iw.2.1.1 iw.2.2.1, max iw.2.1.1 iw.2.2.1, iw.1⟩
    else none)

/-- The `v_wires` list: `(snap(x1), min(y1,y2), max(y1,y2), idx)` for
every vertical (and not horizontal) wire, in input order. -/
def v_wires (wires : List Wire) : List Seg :=
  wires.enum.filterMap (fun iw =>
    if vertB iw.2 then
      some ⟨snap iw.2.1.1, min iw.2.1.2 iw.2.2.2, max iw.2.1.2 iw.2.2.2, iw.1⟩
    else none)

/-- `check_wire_overlaps` (verify.py 408-462 / verify_schematics.py
397-457): split wires by orientation, group by the snapped shared
coordinate, sort each group, and report every overlapping pair within a
group, horizontal groups first. -/
def check_wire_overlaps (wires : List Wire) : List OverlapIssue :=
  (groupBy Seg.key id (h_wires wires)).flatMap
      (fun g => groupIssues true g.1 (g.2.mergeSort segLE))
    ++ (groupBy Seg.key id (v_wires wires)).flatMap
      (fun g => groupIssues false g.1 (g.2.mergeSort segLE))

/-- Two horizontal wires on the same snapped Y whose X ranges overlap by
more than the tolerance. -/
def h_overlap (w w' : Wire) : Bool :=
  horizB w && horizB w' && decide (snap w.1.2 = snap w'.1.2)
    && decide (TOL < min (max w.1.1 w.2.1) (max w'.1.1 w'.2.1)
                      - max (min w.1.1 w.2.1) (min w'.1.1 w'.2.1))

/-- Two vertical wires on the same snapped X whose Y ranges overlap by
more than the tolerance. -/
def v_overlap (w w' : Wire) : Bool :=
  vertB w && vertB w' && decide (snap w.1.1 = snap w'.1.1)
    && decide (TOL < min (max w.1.2 w.2.2) (max w'.1.2 w'.2.2)
                      - max (min w.1.2 w.2.2) (min w'.1.2 w'.2.2))

/-- The claim's pairing criterion: two wires of the same orientation,
sharing their snapped fixed coordinate, whose ranges overlap by more
than the tolerance. -/
def same_axis_overlap (w w' : Wire) : Bool :=
  h_overlap w w' || v_overlap w w'

/-- Number of unordered pairs (index pairs i < j) of a list satisfying a
predicate. -/
def pairCount {α : Type} (P : α → α → Bool) : List α → ℕ
  | [] => 0
  | a :: l => l.countP (P a) + pairCount P l

theorem pairCount_congr {α : Type} {P Q : α → α → Bool} :
    ∀ {l : List α}, (∀ a ∈ l, ∀ b ∈ l, P a b = Q a b) → pairCount P l = pairCount Q l := by
  intro l
  induction l with
  | nil => intro _; rfl
  | cons a l ih =>
    intro h
    have h1 : l.countP (P a) = l.countP (Q a) := by
      refine List.countP_congr (fun b hb => ?_)
      rw [h a (by simp) b (by simp [hb])]
    have h2 : pairCount P l = pairCount Q l :=
      ih (fun x hx y hy => h x (by simp [hx]) y (by simp [hy]))
    simp [pairCount, h1, h2]

theorem pairCount_perm {α : Type} {P : α → α → Bool} (hsym : ∀ a b, P a b = P b a) :
    ∀ {l l' : List α}, l.Perm l' → pairCount P l = pairCount P l' := by
  intro l l' h
  induction h with
  | nil => rfl
  | cons x h ih => simp [pairCount, ih, h.countP_eq]
  | swap x y l =>
    simp only [pairCount, List.countP_cons]
    rw [hsym y x]
    omega
  | trans h₁ h₂ ih₁ ih₂ => exact ih₁.trans ih₂

theorem pairCount_append {α : Type} (P : α → α → Bool) :
    ∀ (l₁ l₂ : List α), pairCount P (l₁ ++ l₂)
      = pairCount P l₁ + pairCount P l₂ + (l₁.map (fun a => l₂.countP (P a))).sum := by
  intro l₁ l₂
  induction l₁ with
  | nil => simp [pairCount]
  | cons a l ih =>
    have hstep : pairCount P ((a :: l) ++ l₂)
        = (l ++ l₂).countP (P a) + pairCount P (l ++ l₂) := rfl
    rw [hstep, ih, List.countP_append]
    simp only [pairCount, List.map_cons, List.sum_cons]
    omega

theorem countP_filterMap_ite {α β : Type} (p : α → Bool) (f : α → β) (q : β → Bool) :
    ∀ l : List α,
      ((l.filterMap (fun a => if p a then some (f a) else none)).countP q)
        = l.countP (fun a => p a && q (f a)) := by
  intro l
  induction l with
  | nil => rfl
  | cons a l ih =>
    by_cases hp : p a
    · by_cases hq : q (f a) <;>
        simp [List.filterMap_cons, hp, List.countP_cons, hq, ih]
    · simp [List.filterMap_cons, hp, List.countP_cons, ih]

theorem length_filterMap_ite {α β : Type} (p : α → Bool) (f : α → β) :
    ∀ l : List α,
      (l.filterMap (fun a => if p a then some (f a) else none)).length = l.countP p := by
  intro l
  induction l with
  | nil => rfl
  | cons a l ih =>
    by_cases hp : p a <;> simp [List.filterMap_cons, hp, List.countP_cons, ih]

theorem groupIssues_length (horiz : Bool) (key : ℚ) :
    ∀ segs : List Seg, (groupIssues horiz key segs).length = pairCount overlapB segs := by
  intro segs
  induction segs with
  | nil => rfl
  | cons a rest ih =>
    simp only [groupIssues, List.length_append, ih, pairCount]
    rw [length_filterMap_ite (overlapB a) (mkOverlapIssue horiz key a) rest]

theorem overlapB_symm (a b : Seg) : overlapB a b = overlapB b a := by
  simp [overlapB, min_comm, max_comm]

theorem countP_filterMap_match {α β : Type} (f : α → Option β) (q : β → Bool) :
    ∀ l : List α,
      (l.filterMap f).countP q
        = l.countP (fun b =>
            match f b with
            | some y => q y
            | none => false) := by
  intro l
  induction l with
  | nil => rfl
  | cons c l ih =>
    rcases hfc : f c with _ | y <;>
      simp [List.filterMap_cons, hfc, List.countP_cons, ih]

theorem pairCount_filterMap {α β : Type} (f : α → Option β) (Q : β → β → Bool) :
    ∀ l : List α,
      pairCount Q (l.filterMap f)
        = pairCount (fun a b =>
            match f a, f b with
            | some x, some y => Q x y
            | _, _ => false) l := by
  intro l
  induction l with
  | nil => rfl
  | cons a l ih =>
    rcases hfa : f a with _ | x
    · have hz : l.countP (fun b =>
          match f a, f b with
          | some x, some y => Q x y
          | _, _ => false) = 0 := by
        rw [List.countP_eq_zero]
        intro b _
        simp [hfa]
      simp [List.filterMap_cons, hfa, pairCount, ih, hz]
    · have hc : (l.filterMap f).countP (Q x)
          = l.countP (fun b =>
              match f a, f b with
              | some x', some y => Q x' y
              | _, _ => false) := by
        rw [countP_filterMap_match f (Q x) l]
        refine List.countP_congr (fun b _ => ?_)
        rcases hfb : f b with _ | y <;> simp [hfa, hfb]
      simp [List.filterMap_cons, hfa, pairCount, ih, hc]

theorem countP_enumFrom {α : Type} (P : α → Bool) :
    ∀ (l : List α) (n : ℕ),
      (l.enumFrom n).countP (fun p => P p.2) = l.countP P := by
  intro l
  induction l with
  | nil => intro n; rfl
  | cons a l ih => intro n; simp [List.enumFrom, List.countP_cons, ih]

theorem pairCount_enumFrom {α : Type} (P : α → α → Bool) :
    ∀ (l : List α) (n : ℕ),
      pairCount (fun p q => P p.2 q.2) (l.enumFrom n) = pairCount P l := by
  intro l
  induction l with
  | nil => intro n; rfl
  | cons a l ih =>
    intro n
    simp only [List.enumFrom, pairCount, ih]
    rw [countP_enumFrom]

theorem countP_or_disjoint {α : Type} {p q : α → Bool}
    (hdisj : ∀ a, ¬(p a = true ∧ q a = true)) :
    ∀ l : List α, l.countP (fun a => p a || q a) = l.countP p + l.countP q := by
  intro l
  induction l with
  | nil => rfl
  | cons c l ih =>
    simp only [List.countP_cons, ih]
    by_cases hp : p c
    · have hq : q c = false := by
        rcases hq : q c with _ | _
        · rfl
        · exact absurd ⟨hp, hq⟩ (hdisj c)
      simp [hp, hq]
      omega
    · by_cases hq : q c <;> simp [hp, hq] <;> omega

theorem pairCount_or_disjoint {α : Type} {P Q : α → α → Bool}
    (hdisj : ∀ a b, ¬(P a b = true ∧ Q a b = true)) :
    ∀ l : List α, pairCount (fun a b => P a b || Q a b) l = pairCount P l + pairCount Q l := by
  intro l
  induction l with
  | nil => rfl
  | cons a l ih =>
    have hstep : pairCount (fun a b => P a b || Q a b) (a :: l)
        = l.countP (fun b => P a b || Q a b) + pairCount (fun a b => P a b || Q a b) l := rfl
    rw [hstep, ih, countP_or_disjoint (fun b => hdisj a b) l]
    simp only [pairCount]
    omega

/-- The keys of a `defaultdict` built over `l`, in first-insertion order. -/
def keysInOrder {α κ : Type} [DecidableEq κ] (key : α → κ) (l : List α) : List κ :=
  l.foldl (fun ks a => if key a ∈ ks then ks else ks ++ [key a]) []

theorem keysInOrder_fold_mem {α κ : Type} [DecidableEq κ] (key : α → κ) (k : κ) :
    ∀ (l : List α) (ks : List κ),
      (k ∈ l.foldl (fun ks a => if key a ∈ ks then ks else ks ++ [key a]) ks
        ↔ k ∈ ks ∨ ∃ a ∈ l, key a = k) := by
  intro l
  induction l with
  | nil => intro ks; simp
  | cons a l ih =>
    intro ks
    by_cases hm : key a ∈ ks
    · rw [List.foldl_cons, if_pos hm, ih]
      constructor
      · rintro (h | h)
        · exact Or.inl h
        · exact Or.inr ⟨h.choose, by simp [h.choose_spec.1], h.choose_spec.2⟩
      · rintro (h | ⟨b, hb, hk⟩)
        · exact Or.inl h
        · rcases List.mem_cons.mp hb with rfl | hb
          · exact Or.inl (hk ▸ hm)
          · exact Or.inr ⟨b, hb, hk⟩
    · rw [List.foldl_cons, if_neg hm, ih]
      constructor
      · rintro (h | h)
        · rcases List.mem_append.mp h with h | h
          · exact Or.inl h
          · exact Or.inr ⟨a, by simp, (List.mem_singleton.mp h).symm⟩
        · exact Or.inr ⟨h.choose, by simp [h.choose_spec.1], h.choose_spec.2⟩
      · rintro (h | ⟨b, hb, hk⟩)
        · exact Or.inl (List.mem_append.mpr (Or.inl h))
        · rcases List.mem_cons.mp hb with rfl | hb
          · exact Or.inl (List.mem_append.mpr (Or.inr (by simp [hk])))
          · exact Or.inr ⟨b, hb, hk⟩

theorem mem_keysInOrder {α κ : Type} [DecidableEq κ] (key : α → κ) (k : κ) (l : List α) :
    k ∈ keysInOrder key l ↔ ∃ a ∈ l, key a = k := by
  rw [keysInOrder, keysInOrder_fold_mem]
  simp

theorem keysInOrder_fold_nodup {α κ : Type} [DecidableEq κ] (key : α → κ) :
    ∀ (l : List α) (ks : List κ), ks.Nodup →
      (l.foldl (fun ks a => if key a ∈ ks then ks else ks ++ [key a]) ks).Nodup := by
  intro l
  induction l with
  | nil => intro ks h; exact h
  | cons a l ih =>
    intro ks h
    by_cases hm : key a ∈ ks
    · rw [List.foldl_cons, if_pos hm]
      exact ih ks h
    · rw [List.foldl_cons, if_neg hm]
      refine ih (ks ++ [key a]) ?_
      simp [List.nodup_append, h, hm]

theorem nodup_keysInOrder {α κ : Type} [DecidableEq κ] (key : α → κ) (l : List α) :
    (keysInOrder key l).Nodup :=
  keysInOrder_fold_nodup key l [] List.nodup_nil

theorem groupBy_append_singleton {α κ β : Type} [DecidableEq κ]
    (key : α → κ) (val : α → β) (l : List α) (a : α) :
    groupBy key val (l ++ [a]) = addToGroup (groupBy key val l) (key a) (val a) := by
  rw [groupBy, List.foldl_append]
  rfl

theorem keysInOrder_append_singleton {α κ : Type} [DecidableEq κ]
    (key : α → κ) (l : List α) (a : α) :
    keysInOrder key (l ++ [a])
      = if key a ∈ keysInOrder key l then keysInOrder key l
        else keysInOrder key l ++ [key a] := by
  rw [keysInOrder, List.foldl_append]
  rfl

theorem groupBy_eq {α κ β : Type} [DecidableEq κ] (key : α → κ) (val : α → β) :
    ∀ l : List α,
      groupBy key val l
        = (keysInOrder key l).map
            (fun k => (k, (l.filter (fun a => decide (key a = k))).map val)) := by
  intro l
  induction l using List.reverseRecOn with
  | nil => rfl
  | append_singleton l a ih =>
    rw [groupBy_append_singleton, keysInOrder_append_singleton, ih]
    by_cases hm : key a ∈ keysInOrder key l
    · rw [if_pos hm, addToGroup]
      have hany : ((keysInOrder key l).map
            (fun k => (k, (l.filter (fun x => decide (key x = k))).map val))).any
              (fun g => decide (g.1 = key a)) = true := by
        rw [List.any_eq_true]
        exact ⟨_, List.mem_map_of_mem _ hm, by simp⟩
      rw [if_pos hany, List.map_map]
      refine List.map_congr_left (fun k hk => ?_)
      by_cases hka : k = key a
      · subst hka
        simp only [Function.comp_apply, if_pos rfl, List.filter_append]
        have hfa : List.filter (fun x => decide (key x = key a)) [a] = [a] := by
          simp
        rw [hfa]
        simp
      · simp only [Function.comp_apply, if_neg hka, List.filter_append]
        have hfa : List.filter (fun x => decide (key x = k)) [a] = [] := by
          simp only [List.filter_eq_nil_iff, List.mem_singleton]
          rintro x rfl
          simp only [decide_eq_true_eq]
          exact fun h => hka h.symm
        rw [hfa]
        simp
    · rw [if_neg hm, addToGroup]
      have hany : ((keysInOrder key l).map
            (fun k => (k, (l.filter (fun x => decide (key x = k))).map val))).any
              (fun g => decide (g.1 = key a)) = false := by
        rw [Bool.eq_false_iff]
        intro h
        rcases List.any_eq_true.mp h with ⟨g, hg, hgk⟩
        rcases List.mem_map.mp hg with ⟨k, hk, rfl⟩
        simp only [decide_eq_true_eq] at hgk
        exact hm (hgk ▸ hk)
      rw [if_neg (by simp [hany]), List.map_append]
      congr 1
      · refine List.map_congr_left (fun k hk => ?_)
        have hka : ¬ key a = k := fun h => hm (h ▸ hk)
        simp only [List.filter_append]
        have hfa : List.filter (fun x => decide (key x = k)) [a] = [] := by
          simp [hka]
        rw [hfa]
        simp
      · have hnone : l.filter (fun x => decide (key x = key a)) = [] := by
          rw [List.filter_eq_nil_iff]
          intro x hx
          simp only [decide_eq_true_eq]
          intro h
          exact hm ((mem_keysInOrder key (key a) l).mpr ⟨x, hx, h⟩)
        simp [List.filter_append, hnone]

theorem pairCount_keys {α κ : Type} [DecidableEq κ] (key : α → κ) (P : α → α → Bool)
    (hsym : ∀ a b, P a b = P b a) :
    ∀ (ks : List κ), ks.Nodup → ∀ (l : List α), (∀ a ∈ l, key a ∈ ks) →
      (ks.map (fun k => pairCount P (l.filter (fun a => decide (key a = k))))).sum
        = pairCount (fun a b => decide (key a = key b) && P a b) l := by
  have hkeyedsym : ∀ (a b : α),
      (decide (key a = key b) && P a b) = (decide (key b = key a) && P b a) := by
    intro a b
    by_cases h : key a = key b
    · simp [h, hsym a b]
    · have h' : ¬ key b = key a := fun hh => h hh.symm
      simp [h, h']
  intro ks
  induction ks with
  | nil =>
    intro _ l hcov
    have : l = [] := List.eq_nil_iff_forall_not_mem.mpr (fun a ha => by simpa using hcov a ha)
    simp [this, pairCount]
  | cons k ks ih =>
    intro hnd l hcov
    have hknd : ks.Nodup := (List.nodup_cons.mp hnd).2
    have hknotin : k ∉ ks := (List.nodup_cons.mp hnd).1
    have hperm : (l.filter (fun a => decide (key a = k))
        ++ l.filter (fun a => !decide (key a = k))).Perm l :=
      List.filter_append_perm (fun a => decide (key a = k)) l
    have hsplit : pairCount (fun a b => decide (key a = key b) && P a b) l
        = pairCount (fun a b => decide (key a = key b) && P a b)
            (l.filter (fun a => decide (key a = k)))
          + pairCount (fun a b => decide (key a = key b) && P a b)
            (l.filter (fun a => !decide (key a = k)))
          + ((l.filter (fun a => decide (key a = k))).map
              (fun a => (l.filter (fun a => !decide (key a = k))).countP
                (fun b => decide (key a = key b) && P a b))).sum := by
      rw [← pairCount_perm hkeyedsym hperm, pairCount_append]
    have hcross : ((l.filter (fun a => decide (key a = k))).map
        (fun a => (l.filter (fun a => !decide (key a = k))).countP
          (fun b => decide (key a = key b) && P a b))).sum = 0 := by
      refine List.sum_eq_zero (fun x hx => ?_)
      rcases List.mem_map.mp hx with ⟨a, ha, rfl⟩
      have hak : key a = k := by
        have := List.of_mem_filter ha
        simpa using this
      rw [List.countP_eq_zero]
      intro b hb
      have hbk : ¬ key b = k := by
        have := List.of_mem_filter hb
        simpa using this
      have hne : ¬ key a = key b := fun h => hbk (h ▸ hak)
      simp [hne]
    have hhead : pairCount (fun a b => decide (key a = key b) && P a b)
        (l.filter (fun a => decide (key a = k)))
        = pairCount P (l.filter (fun a => decide (key a = k))) := by
      refine pairCount_congr (fun a ha b hb => ?_)
      have hak : key a = k := by
        have := List.of_mem_filter ha
        simpa using this
      have hbk : key b = k := by
        have := List.of_mem_filter hb
        simpa using this
      simp [hak, hbk]
    have hrest : (ks.map (fun k' => pairCount P
          ((l.filter (fun a => !decide (key a = k))).filter
            (fun a => decide (key a = k'))))).sum
        = pairCount (fun a b => decide (key a = key b) && P a b)
            (l.filter (fun a => !decide (key a = k))) := by
      refine ih hknd (l.filter (fun a => !decide (key a = k))) (fun a ha => ?_)
      have hne : ¬ key a = k := by
        have := List.of_mem_filter ha
        simpa using this
      have hmem := hcov a (List.mem_of_mem_filter ha)
      rcases List.mem_cons.mp hmem with h | h
      · exact absurd h hne
      · exact h
    have hfiltereq : ∀ k' ∈ ks,
        (l.filter (fun a => !decide (key a = k))).filter (fun a => decide (key a = k'))
          = l.filter (fun a => decide (key a = k')) := by
      intro k' hk'
      have hkne : k ≠ k' := fun h => hknotin (h ▸ hk')
      rw [List.filter_filter]
      refine List.filter_congr (fun a _ => ?_)
      by_cases h : key a = k'
      · have hnk : ¬ key a = k := fun hh => hkne (hh.symm.trans h)
        simp [h, hnk]
        exact fun hh => hkne hh.symm
      · simp [h]
    have hmapsum : ((k :: ks).map
          (fun k => pairCount P (l.filter (fun a => decide (key a = k))))).sum
        = pairCount P (l.filter (fun a => decide (key a = k)))
          + (ks.map (fun k => pairCount P (l.filter (fun a => decide (key a = k))))).sum := by
      simp
    have htail : (ks.map (fun k' => pairCount P (l.filter (fun a => decide (key a = k'))))).sum
        = (ks.map (fun k' => pairCount P
            ((l.filter (fun a => !decide (key a = k))).filter
              (fun a => decide (key a = k'))))).sum := by
      congr 1
      refine List.map_congr_left (fun k' hk' => ?_)
      rw [hfiltereq k' hk']
    rw [hmapsum, htail, hrest, hsplit, hcross, hhead]
    omega

theorem keyed_overlap_symm (a b : Seg) :
    (decide (a.key = b.key) && overlapB a b) = (decide (b.key = a.key) && overlapB b a) := by
  by_cases h : a.key = b.key
  · simp [h, overlapB_symm]
  · have h' : ¬ b.key = a.key := fun hh => h hh.symm
    simp [h, h']

/-- Length of one orientation's grouped double loop: one issue per
unordered pair of same-key overlapping segments. -/
theorem flat_groups_length (horiz : Bool) (segs : List Seg) :
    ((groupBy Seg.key id segs).flatMap
        (fun g => groupIssues horiz g.1 (g.2.mergeSort segLE))).length
      = pairCount (fun a b => decide (a.key = b.key) && overlapB a b) segs := by
  rw [groupBy_eq, List.flatMap_map, List.length_flatMap]
  have hmap : (List.map
      (List.length ∘ fun a =>
        groupIssues horiz (a, List.map id (List.filter (fun s => decide (Seg.key s = a)) segs)).1
          ((a, List.map id (List.filter (fun s => decide (Seg.key s = a)) segs)).2.mergeSort segLE))
      (keysInOrder Seg.key segs))
      = List.map (fun k => pairCount overlapB (segs.filter (fun s => decide (Seg.key s = k))))
          (keysInOrder Seg.key segs) := by
    refine List.map_congr_left (fun k _ => ?_)
    simp only [Function.comp_apply, List.map_id]
    rw [groupIssues_length]
    exact pairCount_perm overlapB_symm
      (List.mergeSort_perm (segs.filter (fun s => decide (Seg.key s = k))) segLE)
  rw [hmap]
  exact pairCount_keys Seg.key overlapB overlapB_symm (keysInOrder Seg.key segs)
    (nodup_keysInOrder Seg.key segs) segs
    (fun s hs => (mem_keysInOrder Seg.key (Seg.key s) segs).mpr ⟨s, hs, rfl⟩)

/-- The entry function building `h_wires` from an indexed wire. -/
def hEntry (iw : ℕ × Wire) : Option Seg :=
  if horizB iw.2 then
    some ⟨snap iw.2.1.2, min iw.2.1.1 iw.2.2.1, max iw.2.1.1 iw.2.2.1, iw.1⟩
  else none

/-- The entry function building `v_wires` from an indexed wire. -/
def vEntry (iw : ℕ × Wire) : Option Seg :=
  if vertB iw.2 then
    some ⟨snap iw.2.1.1, min iw.2.1.2 iw.2.2.2, max iw.2.1.2 iw.2.2.2, iw.1⟩
  else none

theorem h_wires_eq (wires : List Wire) : h_wires wires = wires.enum.filterMap hEntry := rfl

theorem v_wires_eq (wires : List Wire) : v_wires wires = wires.enum.filterMap vEntry := rfl

theorem pairCount_h_wires (wires : List Wire) :
    pairCount (fun a b => decide (a.key = b.key) && overlapB a b) (h_wires wires)
      = pairCount h_overlap wires := by
  rw [h_wires_eq, pairCount_filterMap, List.enum_eq_enumFrom]
  refine Eq.trans (pairCount_congr (fun p _ q _ => ?_)) (pairCount_enumFrom h_overlap wires 0)
  by_cases h1 : horizB p.2 <;> by_cases h2 : horizB q.2 <;>
    simp [hEntry, h1, h2, h_overlap, overlapB]

theorem pairCount_v_wires (wires : List Wire) :
    pairCount (fun a b => decide (a.key = b.key) && overlapB a b) (v_wires wires)
      = pairCount v_overlap wires := by
  rw [v_wires_eq, pairCount_filterMap, List.enum_eq_enumFrom]
  refine Eq.trans (pairCount_congr (fun p _ q _ => ?_)) (pairCount_enumFrom v_overlap wires 0)
  by_cases h1 : vertB p.2 <;> by_cases h2 : vertB q.2 <;>
    simp [vEntry, h1, h2, v_overlap, overlapB]

/-- `check_wire_overlaps` reports exactly one issue per unordered pair
of same-axis wires with equal snapped coordinate and overlapping
ranges. -/
theorem check_wire_overlaps_length (wires : List Wire) :
    (check_wire_overlaps wires).length = pairCount same_axis_overlap wires := by
  have hdisj : ∀ w w' : Wire, ¬(h_overlap w w' = true ∧ v_overlap w w' = true) := by
    rintro w w' ⟨hh, hv⟩
    simp only [h_overlap, Bool.and_eq_true] at hh
    simp only [v_overlap, vertB, Bool.and_eq_true, Bool.not_eq_true'] at hv
    have hfalse := hv.1.1.1.1
    rw [hh.1.1.1] at hfalse
    simp at hfalse
  have hsame : same_axis_overlap = fun w w' => h_overlap w w' || v_overlap w w' := by
    funext w w'
    rfl
  rw [check_wire_overlaps, List.length_append, flat_groups_length, flat_groups_length,
    pairCount_h_wires, pairCount_v_wires, hsame, pairCount_or_disjoint hdisj]

theorem mem_groupIssues {horiz : Bool} {k : ℚ} {e : OverlapIssue} :
    ∀ {segs : List Seg}, e ∈ groupIssues horiz k segs →
      ∃ a ∈ segs, ∃ b ∈ segs, overlapB a b = true ∧ e = mkOverlapIssue horiz k a b := by
  intro segs
  induction segs with
  | nil => intro h; cases h
  | cons a rest ih =>
    intro h
    rcases List.mem_append.mp h with h | h
    · rcases List.mem_filterMap.mp h with ⟨b, hb, hif⟩
      by_cases hov : overlapB a b
      · rw [if_pos hov] at hif
        cases hif
        exact ⟨a, by simp, b, by simp [hb], hov, rfl⟩
      · rw [if_neg hov] at hif
        cases hif
    · rcases ih h with ⟨x, hx, y, hy, hov, rfl⟩
      exact ⟨x, by simp [hx], y, by simp [hy], hov, rfl⟩

theorem mem_h_wires {wires : List Wire} {s : Seg} (hs : s ∈ h_wires wires) :
    ∃ w, wires[s.idx]? = some w ∧ horizB w = true ∧ s.key = snap w.1.2 := by
  rw [h_wires_eq] at hs
  rcases List.mem_filterMap.mp hs with ⟨iw, hmem, hent⟩
  rcases iw with ⟨i, w⟩
  rw [hEntry] at hent
  by_cases hb : horizB w
  · rw [if_pos hb] at hent
    cases hent
    have hiw := List.mem_enum hmem
    exact ⟨w, by rw [List.getElem?_eq_getElem hiw.1]; exact congrArg some hiw.2.symm, hb, rfl⟩
  · rw [if_neg hb] at hent
    cases hent

theorem mem_v_wires {wires : List Wire} {s : Seg} (hs : s ∈ v_wires wires) :
    ∃ w, wires[s.idx]? = some w ∧ vertB w = true ∧ s.key = snap w.1.1 := by
  rw [v_wires_eq] at hs
  rcases List.mem_filterMap.mp hs with ⟨iw, hmem, hent⟩
  rcases iw with ⟨i, w⟩
  rw [vEntry] at hent
  by_cases hb : vertB w
  · rw [if_pos hb] at hent
    cases hent
    have hiw := List.mem_enum hmem
    exact ⟨w, by rw [List.getElem?_eq_getElem hiw.1]; exact congrArg some hiw.2.symm, hb, rfl⟩
  · rw [if_neg hb] at hent
    cases hent

theorem check_wire_overlaps_h_side {wires : List Wire} {e : OverlapIssue}
    (he : e ∈ (groupBy Seg.key id (h_wires wires)).flatMap
      (fun g => groupIssues true g.1 (g.2.mergeSort segLE))) :
    ∃ wa wb, wires[e.a_idx]? = some wa ∧ wires[e.b_idx]? = some wb ∧ e.horiz = true ∧
      horizB wa = true ∧ horizB wb = true ∧ snap wa.1.2 = e.coord ∧ snap wb.1.2 = e.coord := by
  rcases List.mem_flatMap.mp he with ⟨g, hg, hge⟩
  rw [groupBy_eq] at hg
  rcases List.mem_map.mp hg with ⟨k, _, rfl⟩
  rcases mem_groupIssues hge with ⟨a, ha, b, hb, _, rfl⟩
  rw [List.mem_mergeSort] at ha hb
  simp only [List.map_id] at ha hb
  have hak : a.key = k := by simpa using List.of_mem_filter ha
  have hbk : b.key = k := by simpa using List.of_mem_filter hb
  rcases mem_h_wires (List.mem_of_mem_filter ha) with ⟨wa, hwa, hha, hka⟩
  rcases mem_h_wires (List.mem_of_mem_filter hb) with ⟨wb, hwb, hhb, hkb⟩
  exact ⟨wa, wb, hwa, hwb, rfl, hha, hhb,
    by rw [← hka, hak]; rfl, by rw [← hkb, hbk]; rfl⟩

theorem check_wire_overlaps_v_side {wires : List Wire} {e : OverlapIssue}
    (he : e ∈ (groupBy Seg.key id (v_wires wires)).flatMap
      (fun g => groupIssues false g.1 (g.2.mergeSort segLE))) :
    ∃ wa wb, wires[e.a_idx]? = some wa ∧ wires[e.b_idx]? = some wb ∧ e.horiz = false ∧
      vertB wa = true ∧ vertB wb = true ∧ snap wa.1.1 = e.coord ∧ snap wb.1.1 = e.coord := by
  rcases List.mem_flatMap.mp he with ⟨g, hg, hge⟩
  rw [groupBy_eq] at hg
  rcases List.mem_map.mp hg with ⟨k, _, rfl⟩
  rcases mem_groupIssues hge with ⟨a, ha, b, hb, _, rfl⟩
  rw [List.mem_mergeSort] at ha hb
  simp only [List.map_id] at ha hb
  have hak : a.key = k := by simpa using List.of_mem_filter ha
  have hbk : b.key = k := by simpa using List.of_mem_filter hb
  rcases mem_v_wires (List.mem_of_mem_filter ha) with ⟨wa, hwa, hva, hka⟩
  rcases mem_v_wires (List.mem_of_mem_filter hb) with ⟨wb, hwb, hvb, hkb⟩
  exact ⟨wa, wb, hwa, hwb, rfl, hva, hvb,
    by rw [← hka, hak]; rfl, by rw [← hkb, hbk]; rfl⟩

/-! ## Parsed-schematic data and the remaining checks

`parse_schematic` itself is file I/O over the kiutils object model and
is out of scope; the checks are embedded as functions of the data
dictionary it returns.  Python dicts become association lists (unique
keys, first match = the binding), Python sets become lists used only
through membership. -/

/-- The dictionary returned by `parse_schematic` (verify.py 246-390). -/
structure SchData where
  wires : List Wire
  pins : List (Pt × (String × String × String))
  pin_positions : List Pt
  pin_stubs : List (Pt × (ℚ × ℚ × ℚ))
  junctions : List Pt
  labels : List Pt
  no_connects : List Pt
  sheet_pins : List Pt
  sheet_blocks : List (String × ℚ × ℚ × ℚ × ℚ)
  page_size : ℚ × ℚ
  components : List Comp
  lib_bboxes : List (String × BBox)
  lib_body_bboxes : List (String × BBox)
deriving DecidableEq

/-- First-match association-list lookup (`dict.get`). -/
def lookupMap {κ ν : Type} [DecidableEq κ] : List (κ × ν) → κ → Option ν
  | [], _ => none
  | e :: m, k => if k = e.1 then some e.2 else lookupMap m k

/-- All wire endpoints, with multiplicity, in wire order. -/
def all_endpoints (wires : List Wire) : List Pt :=
  wires.flatMap (fun w => [w.1, w.2])

/-- Python's lexicographic tuple comparison on points, for
`sorted(unique_endpoints)`. -/
def ptLE (a b : Pt) : Bool :=
  decide (a.1 < b.1) || (decide (a.1 = b.1) && decide (a.2 ≤ b.2))

/-- The T-junction pass of `check_dangling_endpoints` (verify.py
498-514): every unique endpoint lying on the (tolerance-inflated,
endpoint-inclusive) span of any horizontal or vertical wire is marked
connected. -/
def tjunction_connected (wires : List Wire) (unique_endpoints : List Pt) : List Pt :=
  wires.flatMap (fun w =>
    if horizB w then
      unique_endpoints.filter (fun pt =>
        decide (pabs (pt.2 - snap w.1.2) < TOL) &&
        decide (min w.1.1 w.2.1 - TOL ≤ pt.1) && decide (pt.1 ≤ max w.1.1 w.2.1 + TOL))
    else if vertB w then
      unique_endpoints.filter (fun pt =>
        decide (pabs (pt.1 - snap w.1.1) < TOL) &&
        decide (min w.1.2 w.2.2 - TOL ≤ pt.2) && decide (pt.2 ≤ max w.1.2 w.2.2 + TOL))
    else [])

/-- `check_dangling_endpoints` (verify.py 465-524 / verify_schematics.py
460-530).  The connected set is: pins, junctions, labels, no-connects,
sheet pins, endpoints occurring twice or more, and every endpoint on a
wire span (T-junction pass).  A sorted unique endpoint is reported when
it is neither in that set nor `pts_close` to any member of it.  The
issue string interpolates only the point. -/
def check_dangling_endpoints (d : SchData) : List Pt :=
  let all_eps := all_endpoints d.wires
  let unique_eps := all_eps.dedup
  let connected : List Pt :=
    d.pin_positions ++ d.junctions ++ d.labels ++ d.no_connects ++ d.sheet_pins
      ++ unique_eps.filter (fun pt => 2 ≤ all_eps.count pt)
      ++ tjunction_connected d.wires unique_eps
  (unique_eps.mergeSort ptLE).filterMap (fun pt =>
    if pt ∈ connected then none
    else if connected.any (fun cp => pts_close pt cp) then none
    else some pt)

/-- `check_diagonal_wires` (verify.py 397-405): wires whose endpoints
differ by more than the tolerance in both X and Y; the issue carries
the wire index and the wire. -/
def check_diagonal_wires (d : SchData) : List (ℕ × Wire) :=
  d.wires.enum.filterMap (fun iw =>
    if decide (TOL < pabs (iw.2.1.1 - iw.2.2.1)) && decide (TOL < pabs (iw.2.1.2 - iw.2.2.2)) then
      some iw
    else none)

/-- One issue line of `check_wire_through_pins`. -/
structure ThroughPinIssue where
  w_idx : ℕ
  horiz : Bool
  wire : Wire
  ref : String
  pin_num : String
  px : ℚ
  py : ℚ
deriving DecidableEq

/-- `check_wire_through_pins` (verify.py 527-565): a non-power pin which
is not (even within tolerance) a wire endpoint, but sits strictly
inside the span of a wire on the wire's line, is an unintended
connection. -/
def check_wire_through_pins (d : SchData) : List ThroughPinIssue :=
  let wire_endpoints := all_endpoints d.wires
  d.pins.flatMap (fun pe =>
    if pe.2.1.startsWith "#" then []
    else if decide (pe.1 ∈ wire_endpoints) then []
    else if wire_endpoints.any (fun ep => pts_close pe.1 ep) then []
    else
      d.wires.enum.flatMap (fun iw =>
        if horizB iw.2 then
          if decide (pabs (pe.1.2 - iw.2.1.2) < TOL)
              && decide (min iw.2.1.1 iw.2.2.1 + TOL < pe.1.1)
              && decide (pe.1.1 < max iw.2.1.1 iw.2.2.1 - TOL) then
            [⟨iw.1, true, iw.2, pe.2.1, pe.2.2.1, pe.1.1, pe.1.2⟩]
          else []
        else if vertB iw.2 then
          if decide (pabs (pe.1.1 - iw.2.1.1) < TOL)
              && decide (min iw.2.1.2 iw.2.2.2 + TOL < pe.1.2)
              && decide (pe.1.2 < max iw.2.1.2 iw.2.2.2 - TOL) then
            [⟨iw.1, false, iw.2, pe.2.1, pe.2.2.1, pe.1.1, pe.1.2⟩]
          else []
        else []))

/-- `_get_schematic_bbox` (verify.py 199-204): look up the library bbox
by name and transform it for the instance, or `None`. -/
def get_schematic_bbox (lib_bboxes : List (String × BBox)) (lib_name : String)
    (cx cy angle : ℚ) : Option BBox :=
  match lookupMap lib_bboxes lib_name with
  | some bb => some (lib_bbox_to_schematic bb cx cy angle)
  | none => none

/-- `_bboxes_overlap` (verify.py 207-210). -/
def bboxes_overlap (a b : BBox) : Bool :=
  decide (a.1 < b.2.2.1 - TOL) && decide (b.1 + TOL < a.2.2.1)
    && decide (a.2.1 < b.2.2.2 - TOL) && decide (b.2.1 + TOL < a.2.2.2)

/-- One issue line of `check_wire_through_body`. -/
structure ThroughBodyIssue where
  w_idx : ℕ
  wire : Wire
  ref : String
  lib_name : String
  bbox : BBox
deriving DecidableEq

/-- The per-component body bbox of `check_wire_through_body` (power
symbols and bodiless symbols get `None`). -/
def comp_body_bbox (d : SchData) (c : Comp) : Option BBox :=
  if c.ref.startsWith "#" then none
  else
    match lookupMap d.lib_body_bboxes c.lib_name with
    | some bb => some (lib_bbox_to_schematic bb c.cx c.cy c.angle)
    | none => none

/-- `check_wire_through_body` (verify.py 568-618): a wire whose interior
crosses a component's body bbox, unless one of its endpoints touches a
pin of that same component. -/
def check_wire_through_body (d : SchData) : List ThroughBodyIssue :=
  d.wires.enum.flatMap (fun iw =>
    d.components.filterMap (fun c =>
      match comp_body_bbox d c with
      | none => none
      | some bbox =>
        if !wire_segment_intersects_bbox iw.2.1.1 iw.2.1.2 iw.2.2.1 iw.2.2.2 bbox then none
        else
          let comp_pins := d.pins.filterMap
            (fun pe => if pe.2.1 = c.ref then some pe.1 else none)
          if comp_pins.any (fun pp => pts_close iw.2.1 pp || pts_close iw.2.2 pp) then none
          else some ⟨iw.1, iw.2, c.ref, c.lib_name, bbox⟩))

/-- One issue line of `check_tjunctions_without_dots`. -/
structure TJunctionIssue where
  pt : Pt
  horiz : Bool
  wire : Wire
deriving DecidableEq

/-- `check_tjunctions_without_dots` (verify.py 621-661): an endpoint
strictly inside another wire's span without a junction dot; duplicate
(point, orientation, span) keys are reported once. -/
def check_tjunctions_without_dots (d : SchData) : List TJunctionIssue :=
  let endpoint_list := (all_endpoints d.wires).dedup
  (endpoint_list.foldl (fun st pt =>
    d.wires.foldl (fun st w =>
      if horizB w then
        let xmin := min w.1.1 w.2.1
        let xmax := max w.1.1 w.2.1
        let y := snap w.1.2
        if decide (pabs (pt.2 - y) < TOL) && decide (xmin + TOL < pt.1)
            && decide (pt.1 < xmax - TOL) then
          if decide ((pt, true, y, xmin, xmax) ∈ st.1) || decide (pt ∈ d.junctions) then st
          else ((pt, true, y, xmin, xmax) :: st.1, st.2 ++ [⟨pt, true, w⟩])
        else st
      else if vertB w then
        let ymin := min w.1.2 w.2.2
        let ymax := max w.1.2 w.2.2
        let x := snap w.1.1
        if decide (pabs (pt.1 - x) < TOL) && decide (ymin + TOL < pt.2)
            && decide (pt.2 < ymax - TOL) then
          if decide ((pt, false, x, ymin, ymax) ∈ st.1) || decide (pt ∈ d.junctions) then st
          else ((pt, false, x, ymin, ymax) :: st.1, st.2 ++ [⟨pt, false, w⟩])
        else st
      else st) st)
    (([], []) : List (Pt × Bool × ℚ × ℚ × ℚ) × List TJunctionIssue)).2

/-- One issue line of `check_wire_overlaps_pin_stub`. -/
structure StubIssue where
  w_idx : ℕ
  ref : String
  pin_num : String
  px : ℚ
  py : ℚ
deriving DecidableEq

/-- `check_wire_overlaps_pin_stub` (verify.py 815-864): a wire leaving a
pin tip within ~15° of the pin's stub direction.  The square-root-free
conditions are exact over ℚ: `wire_len < TOLERANCE` iff
`wx² + wy² < TOLERANCE²`, and `dot / wire_len > 0.96` iff
`dot > 0 ∧ dot² > 0.96² · (wx² + wy²)` (as `wire_len > 0` there);
`0.96² = 0.9216 = 576/625`. -/
def check_wire_overlaps_pin_stub (d : SchData) : List StubIssue :=
  if d.pin_stubs.isEmpty then []
  else
    (d.pins.foldl (fun st pe =>
      if pe.2.1.startsWith "#" then st
      else if pe.2.2.2.startsWith "Conn" then st
      else
        match lookupMap d.pin_stubs pe.1 with
        | none => st
        | some sd =>
          if decide (|sd.1| < 1 / 100) && decide (|sd.2.1| < 1 / 100) then st
          else
            d.wires.enum.foldl (fun st iw =>
              match
                (if pts_close iw.2.1 pe.1 then some iw.2.2
                 else if pts_close iw.2.2 pe.1 then some iw.2.1
                 else none) with
              | none => st
              | some other =>
                let wx := other.1 - pe.1.1
                let wy := other.2 - pe.1.2
                if decide (wx * wx + wy * wy < TOL * TOL) then st
                else
                  let dot := wx * sd.1 + wy * sd.2.1
                  if decide (0 < dot)
                      && decide ((576 / 625 : ℚ) * (wx * wx + wy * wy) < dot * dot) then
                    if decide ((pe.1.1, pe.1.2, pe.2.1, pe.2.2.1) ∈ st.1) then st
                    else ((pe.1.1, pe.1.2, pe.2.1, pe.2.2.1) :: st.1,
                      st.2 ++ [⟨iw.1, pe.2.1, pe.2.2.1, pe.1.1, pe.1.2⟩])
                  else st) st)
      (([], []) : List (ℚ × ℚ × String × String) × List StubIssue)).2

/-- One issue line of `check_component_overlap`: either a bbox-overlap
report (with both bboxes) or the center-distance fallback (with both
centers; the printed distance is the square root of the recorded
squared distance). -/
structure CompOverlapIssue where
  ref_a : String
  lib_a : String
  ref_b : String
  lib_b : String
  bboxes : Option (BBox × BBox)
  centers : Option (Pt × Pt)
deriving DecidableEq

/-- The `i < j` double loop of `check_component_overlap`, over the
non-power components paired with their precomputed bboxes.
`dist < 1.5` is tested as `dist² < 2.25`, exact over ℚ. -/
def compPairs : List (Comp × Option BBox) → List CompOverlapIssue
  | [] => []
  | a :: rest =>
    rest.filterMap (fun b =>
      match a.2, b.2 with
      | some ba, some bb =>
        if bboxes_overlap ba bb then
          some ⟨a.1.ref, a.1.lib_name, b.1.ref, b.1.lib_name, some (ba, bb), none⟩
        else none
      | _, _ =>
        if (a.1.cx - b.1.cx) * (a.1.cx - b.1.cx)
            + (a.1.cy - b.1.cy) * (a.1.cy - b.1.cy) < (9 / 4 : ℚ) then
          some ⟨a.1.ref, a.1.lib_name, b.1.ref, b.1.lib_name, none,
            some ((a.1.cx, a.1.cy), (b.1.cx, b.1.cy))⟩
        else none)
      ++ compPairs rest

/-- `check_component_overlap` (verify.py 664-707): bbox overlap among
non-power, non-connector components, with `MIN_DIST = 1.5` mm
center-distance fallback when a bbox is unavailable. -/
def check_component_overlap (d : SchData) : List CompOverlapIssue :=
  let non_power := d.components.filter
    (fun c => !c.ref.startsWith "#" && !c.lib_name.startsWith "Conn")
  compPairs (non_power.map
    (fun c => (c, get_schematic_bbox d.lib_bboxes c.lib_name c.cx c.cy c.angle)))

/-- One issue line of `check_content_on_sheet_blocks`. -/
inductive SheetBlockIssue where
  | comp_bbox (ref lib_name : String) (bbox : BBox) (sname : String) (bx by_ bw bh : ℚ)
  | comp_center (ref lib_name : String) (cx cy : ℚ) (sname : String) (bx by_ bw bh : ℚ)
  | wire (w_idx : ℕ) (w : Wire) (sname : String) (bx by_ bw bh : ℚ)
deriving DecidableEq

/-- `_inside_block` (verify.py 721-723): strictly inside a sheet block. -/
def inside_block (px py bx by_ bw bh : ℚ) : Bool :=
  decide (bx + TOL < px) && decide (px < bx + bw - TOL)
    && decide (by_ + TOL < py) && decide (py < by_ + bh - TOL)

/-- `check_content_on_sheet_blocks` (verify.py 710-762): components
(bbox or center) and wires (either endpoint) inside a hierarchical
sheet block rectangle. -/
def check_content_on_sheet_blocks (d : SchData) : List SheetBlockIssue :=
  d.components.flatMap (fun c =>
    if c.ref.startsWith "#" then []
    else
      match get_schematic_bbox d.lib_bboxes c.lib_name c.cx c.cy c.angle with
      | some cb =>
        d.sheet_blocks.filterMap (fun sb =>
          if bboxes_overlap cb (sb.2.1, sb.2.2.1, sb.2.1 + sb.2.2.2.1, sb.2.2.1 + sb.2.2.2.2) then
            some (.comp_bbox c.ref c.lib_name cb sb.1 sb.2.1 sb.2.2.1 sb.2.2.2.1 sb.2.2.2.2)
          else none)
      | none =>
        d.sheet_blocks.filterMap (fun sb =>
          if inside_block c.cx c.cy sb.2.1 sb.2.2.1 sb.2.2.2.1 sb.2.2.2.2 then
            some (.comp_center c.ref c.lib_name c.cx c.cy sb.1 sb.2.1 sb.2.2.1
              sb.2.2.2.1 sb.2.2.2.2)
          else none))
  ++ d.wires.enum.flatMap (fun iw =>
      d.sheet_blocks.filterMap (fun sb =>
        if inside_block iw.2.1.1 iw.2.1.2 sb.2.1 sb.2.2.1 sb.2.2.2.1 sb.2.2.2.2
            || inside_block iw.2.2.1 iw.2.2.2 sb.2.1 sb.2.2.1 sb.2.2.2.1 sb.2.2.2.2 then
          some (.wire iw.1 iw.2 sb.1 sb.2.1 sb.2.2.1 sb.2.2.2.1 sb.2.2.2.2)
        else none))

/-- One issue line of `check_page_boundary`. -/
inductive PageIssue where
  | wire (w_idx : ℕ) (w : Wire)
  | comp_bbox (ref lib_name : String) (bbox : BBox)
  | comp_center (ref lib_name : String) (cx cy : ℚ)
deriving DecidableEq

/-- `check_page_boundary` (verify.py 765-812): wires with an endpoint,
or components with a bbox (or bare center), outside the page border
inset `margin - border_tol = 12.5 - 0.5 = 12` mm from each page edge. -/
def check_page_boundary (d : SchData) : List PageIssue :=
  let min_x : ℚ := 25 / 2 - 1 / 2
  let min_y : ℚ := 25 / 2 - 1 / 2
  let max_x : ℚ := d.page_size.1 - 25 / 2 + 1 / 2
  let max_y : ℚ := d.page_size.2 - 25 / 2 + 1 / 2
  let outside := fun (px py : ℚ) =>
    decide (px < min_x) || decide (max_x < px) || decide (py < min_y) || decide (max_y < py)
  d.wires.enum.filterMap (fun iw =>
    if outside iw.2.1.1 iw.2.1.2 || outside iw.2.2.1 iw.2.2.2 then
      some (PageIssue.wire iw.1 iw.2)
    else none)
  ++ d.components.flatMap (fun c =>
      if c.ref.startsWith "#" then []
      else
        match lookupMap d.lib_bboxes c.lib_name with
        | some lb =>
          let sb := lib_bbox_to_schematic lb c.cx c.cy c.angle
          if decide (sb.1 < min_x) || decide (max_x < sb.2.2.1)
              || decide (sb.2.1 < min_y) || decide (max_y < sb.2.2.2) then
            [PageIssue.comp_bbox c.ref c.lib_name sb]
          else []
        | none =>
          if outside c.cx c.cy then [PageIssue.comp_center c.ref c.lib_name c.cx c.cy]
          else [])

/-- A finding of any of the 11 checks, for the aggregated result list of
`run_all_checks`. -/
inductive Issue where
  | diagonal : ℕ × Wire → Issue
  | overlap : OverlapIssue → Issue
  | dangling : Pt → Issue
  | through_pin : ThroughPinIssue → Issue
  | through_body : ThroughBodyIssue → Issue
  | tjunction : TJunctionIssue → Issue
  | stub : StubIssue → Issue
  | comp_overlap : CompOverlapIssue → Issue
  | sheet_block : SheetBlockIssue → Issue
  | page : PageIssue → Issue
  | power : PowerIssue → Issue
deriving DecidableEq

/-- `run_all_checks` (verify.py 888-948): run the 11 checks on the same
parsed data, in source order, and return `(category, issues, is_error)`
for exactly the non-empty ones.  The file-parsing branch
(`data is None`) is out of scope; the data is passed directly. -/
def run_all_checks (d : SchData) : List (String × List Issue × Bool) :=
  (if check_diagonal_wires d ≠ [] then
    [("Diagonal Wires", (check_diagonal_wires d).map Issue.diagonal, true)] else [])
  ++ (if check_wire_overlaps d.wires ≠ [] then
    [("Wire Overlaps (NET MERGE)", (check_wire_overlaps d.wires).map Issue.overlap, true)]
    else [])
  ++ (if check_dangling_endpoints d ≠ [] then
    [("Dangling Endpoints", (check_dangling_endpoints d).map Issue.dangling, true)] else [])
  ++ (if check_wire_through_pins d ≠ [] then
    [("Wire Through Pin", (check_wire_through_pins d).map Issue.through_pin, true)] else [])
  ++ (if check_wire_through_body d ≠ [] then
    [("Wire Through Body", (check_wire_through_body d).map Issue.through_body, true)]
    else [])
  ++ (if check_tjunctions_without_dots d ≠ [] then
    [("T-junction (no dot)",
      (check_tjunctions_without_dots d).map Issue.tjunction, false)] else [])
  ++ (if check_wire_overlaps_pin_stub d ≠ [] then
    [("Wire Overlaps Pin Stub", (check_wire_overlaps_pin_stub d).map Issue.stub, true)]
    else [])
  ++ (if check_component_overlap d ≠ [] then
    [("Component Overlap", (check_component_overlap d).map Issue.comp_overlap, true)]
    else [])
  ++ (if check_content_on_sheet_blocks d ≠ [] then
    [("Content on Sheet Block",
      (check_content_on_sheet_blocks d).map Issue.sheet_block, true)] else [])
  ++ (if check_page_boundary d ≠ [] then
    [("Outside Page Border", (check_page_boundary d).map Issue.page, true)] else [])
  ++ (if check_power_orientation d.components ≠ [] then
    [("Power Orientation", (check_power_orientation d.components).map Issue.power, true)]
    else [])

/-! ## Union-Find (`_UnionFind` / `UnionFind`, claims C4 and C5)

The `_parent` dict is modelled as an association list where an
assignment conses a new binding (lookup takes the first, so older
bindings are shadowed).  The `while` loop of `find` — path halving plus
on-demand insertion of unseen keys — is modelled with fuel
`length + 1`, which the no-cycle invariant proves sufficient. -/

section UnionFindModel

variable {α : Type} [DecidableEq α]

/-- Parent of `x`: the dict binding, or `x` itself when absent
(`find` inserts `x` as its own parent before walking). -/
def pf (m : List (α × α)) (x : α) : α := (lookupMap m x).getD x

/-- `k`-fold parent. -/
def chain (m : List (α × α)) (k : ℕ) (x : α) : α := (pf m)^[k] x

/-- The no-cycle invariant of the parent map: any cycle is a self-loop
(a root).  Kept by every operation; initial state `[]` has it. -/
def WFuf (m : List (α × α)) : Prop :=
  ∀ x k, 0 < k → chain m k x = x → pf m x = x

/-- The root of `x`: where the parent chain lands after `length + 1`
steps (enough under `WFuf`, by pigeonhole). -/
def rootD (m : List (α × α)) (x : α) : α := chain m (m.length + 1) x

theorem chain_zero (m : List (α × α)) (x : α) : chain m 0 x = x := rfl

theorem chain_succ (m : List (α × α)) (k : ℕ) (x : α) :
    chain m (k + 1) x = chain m k (pf m x) :=
  Function.iterate_succ_apply (pf m) k x

theorem chain_succ' (m : List (α × α)) (k : ℕ) (x : α) :
    chain m (k + 1) x = pf m (chain m k x) :=
  Function.iterate_succ_apply' (pf m) k x

theorem chain_add (m : List (α × α)) (j k : ℕ) (x : α) :
    chain m (j + k) x = chain m j (chain m k x) :=
  Function.iterate_add_apply (pf m) j k x

theorem chain_of_root {m : List (α × α)} {r : α} (h : pf m r = r) :
    ∀ k, chain m k r = r := by
  intro k
  induction k with
  | zero => rfl
  | succ k ih => rw [chain_succ', ih, h]

theorem pf_eq_self_of_not_mem {m : List (α × α)} {x : α}
    (h : x ∉ m.map Prod.fst) : pf m x = x := by
  induction m with
  | nil => rfl
  | cons e m ih =>
    simp only [List.map_cons, List.mem_cons, not_or] at h
    rw [pf, lookupMap, if_neg h.1]
    exact ih h.2

theorem mem_keys_of_pf_ne {m : List (α × α)} {x : α} (h : pf m x ≠ x) :
    x ∈ m.map Prod.fst := by
  by_contra hc
  exact h (pf_eq_self_of_not_mem hc)

/-- Pigeonhole: under `WFuf`, every chain reaches a root within
`length` steps. -/
theorem exists_root_le_length {m : List (α × α)} (hwf : WFuf m) (x : α) :
    ∃ k ≤ m.length, pf m (chain m k x) = chain m k x := by
  by_contra hc
  push_neg at hc
  have hnr : ∀ k ≤ m.length, pf m (chain m k x) ≠ chain m k x := hc
  have hinj : ∀ i ∈ List.range (m.length + 1), ∀ j ∈ List.range (m.length + 1),
      chain m i x = chain m j x → i = j := by
    intro i hi j hj hij
    by_contra hne
    rcases Nat.lt_or_ge i j with hlt | hge
    · have hcyc : chain m (j - i) (chain m i x) = chain m i x := by
        rw [← chain_add]
        have : j - i + i = j := Nat.sub_add_cancel (Nat.le_of_lt hlt)
        rw [this, hij]
      have := hwf (chain m i x) (j - i) (Nat.sub_pos_of_lt hlt) hcyc
      exact hnr i (Nat.lt_succ_iff.mp (List.mem_range.mp hi)) this
    · have hlt' : j < i := Nat.lt_of_le_of_ne hge (fun h => hne h.symm)
      have hcyc : chain m (i - j) (chain m j x) = chain m j x := by
        rw [← chain_add]
        have : i - j + j = i := Nat.sub_add_cancel (Nat.le_of_lt hlt')
        rw [this, hij]
      have := hwf (chain m j x) (i - j) (Nat.sub_pos_of_lt hlt') hcyc
      exact hnr j (Nat.lt_succ_iff.mp (List.mem_range.mp hj)) this
  have hnodup : ((List.range (m.length + 1)).map (fun k => chain m k x)).Nodup :=
    List.Nodup.map_on hinj (List.nodup_range (m.length + 1))
  have hsub : ((List.range (m.length + 1)).map (fun k => chain m k x)) ⊆ m.map Prod.fst := by
    intro y hy
    rcases List.mem_map.mp hy with ⟨k, hk, rfl⟩
    exact mem_keys_of_pf_ne (hnr k (Nat.lt_succ_iff.mp (List.mem_range.mp hk)))
  have hlen := (hnodup.subperm hsub).length_le
  rw [List.length_map, List.length_map, List.length_range] at hlen
  omega

theorem rootD_isRoot {m : List (α × α)} (hwf : WFuf m) (x : α) :
    pf m (rootD m x) = rootD m x := by
  rcases exists_root_le_length hwf x with ⟨k, hk, hroot⟩
  have : rootD m x = chain m k x := by
    rw [rootD]
    have hsplit : m.length + 1 = (m.length + 1 - k) + k := by omega
    rw [hsplit, chain_add, chain_of_root hroot]
  rw [this]
  exact hroot

theorem rootD_eq_of_chain {m : List (α × α)} (hwf : WFuf m) {x r : α} {k : ℕ}
    (hc : chain m k x = r) (hr : pf m r = r) : rootD m x = r := by
  rcases le_or_lt k (m.length + 1) with hle | hlt
  · rw [rootD]
    have hsplit : m.length + 1 = (m.length + 1 - k) + k := by omega
    rw [hsplit, chain_add, hc, chain_of_root hr]
  · have : chain m (k - (m.length + 1)) (rootD m x) = r := by
      rw [rootD, ← chain_add]
      have : k - (m.length + 1) + (m.length + 1) = k := by omega
      rw [this, hc]
    rw [← this, chain_of_root (rootD_isRoot hwf x)]

theorem rootD_pf {m : List (α × α)} (hwf : WFuf m) (x : α) :
    rootD m (pf m x) = rootD m x := by
  have h2 : chain m (m.length + 1) (pf m x) = rootD m x := by
    have hh : chain m (m.length + 1 + 1) x = chain m (m.length + 1) (pf m x) :=
      chain_succ m (m.length + 1) x
    have hh2 : chain m (m.length + 1 + 1) x = pf m (chain m (m.length + 1) x) :=
      chain_succ' m (m.length + 1) x
    rw [← hh, hh2]
    exact rootD_isRoot hwf x
  exact rootD_eq_of_chain hwf h2 (rootD_isRoot hwf x)

theorem rootD_chain {m : List (α × α)} (hwf : WFuf m) (k : ℕ) (x : α) :
    rootD m (chain m k x) = rootD m x := by
  induction k with
  | zero => rfl
  | succ k ih => rw [chain_succ', rootD_pf hwf, ih]

theorem rootD_of_root {m : List (α × α)} (hwf : WFuf m) {r : α} (hr : pf m r = r) :
    rootD m r = r :=
  rootD_eq_of_chain hwf (chain_zero m r) hr

theorem pf_cons (m : List (α × α)) (a b y : α) :
    pf ((a, b) :: m) y = if y = a then b else pf m y := by
  rw [pf, lookupMap]
  by_cases h : y = a
  · rw [if_pos h, if_pos h]
    rfl
  · rw [if_neg h, if_neg h]
    rfl

/-- Chains that avoid the updated key are unchanged by a cons update. -/
theorem chain_cons_of_avoid {m : List (α × α)} {a b x : α} {k : ℕ}
    (h : ∀ j < k, chain m j x ≠ a) :
    chain ((a, b) :: m) k x = chain m k x := by
  induction k with
  | zero => rfl
  | succ k ih =>
    have hk : ∀ j < k, chain m j x ≠ a := fun j hj => h j (Nat.lt_succ_of_lt hj)
    rw [chain_succ', chain_succ', ih hk, pf_cons,
      if_neg (h k (Nat.lt_succ_self k))]

/-- Under `WFuf`, the chain from a non-root `x`'s parent never returns
to `x`. -/
theorem chain_pf_ne_self {m : List (α × α)} (hwf : WFuf m) {x : α}
    (hx : pf m x ≠ x) : ∀ k, chain m k (pf m x) ≠ x := by
  intro k hk
  have : chain m (k + 1) x = x := by
    rw [chain_succ, hk]
  exact hx (hwf x (k + 1) (Nat.succ_pos k) this)

/-- Chains from points never reaching the updated key are unchanged;
formulated with the updated map on the left. -/
theorem chain_cons_of_avoid' {m : List (α × α)} {a b x : α} {k : ℕ}
    (h : ∀ j < k, chain ((a, b) :: m) j x ≠ a) :
    chain ((a, b) :: m) k x = chain m k x := by
  induction k with
  | zero => rfl
  | succ k ih =>
    have hk : ∀ j < k, chain ((a, b) :: m) j x ≠ a := fun j hj => h j (Nat.lt_succ_of_lt hj)
    have heq := ih hk
    have hlast : chain m k x ≠ a := by
      rw [← heq]
      exact h k (Nat.lt_succ_self k)
    rw [chain_succ', chain_succ', heq, pf_cons, if_neg hlast]

/-- The path-halving update `(x, g) :: m` with `g` the grandparent of a
non-root `x` keeps `WFuf` and every `rootD`. -/
theorem halving_step {m : List (α × α)} (hwf : WFuf m) {x : α}
    (hx : pf m x ≠ x) :
    WFuf ((x, pf m (pf m x)) :: m)
      ∧ (∀ y, rootD ((x, pf m (pf m x)) :: m) y = rootD m y) := by
  set p := pf m x with hp
  set g := pf m p with hg
  have hgx : ∀ k, chain m k g ≠ x := by
    intro k
    have hshift : chain m (k + 1) p = chain m k g := by
      rw [chain_succ]
    rw [← hshift]
    exact chain_pf_ne_self hwf hx (k + 1)
  have hchain_g : ∀ k, chain ((x, g) :: m) k g = chain m k g := by
    intro k
    exact chain_cons_of_avoid (fun j _ => hgx j)
  have hpfx : pf ((x, g) :: m) x = g := by
    rw [pf_cons, if_pos rfl]
  -- WFuf of the updated map
  have hwf' : WFuf ((x, g) :: m) := by
    intro y k hk hcyc
    by_cases hhit : ∃ j < k, chain ((x, g) :: m) j y = x
    · exfalso
      rcases hhit with ⟨j, hj, hjx⟩
      -- shift the cycle to x
      have hcycx : chain ((x, g) :: m) k x = x := by
        have e1 : chain ((x, g) :: m) (k + j) y
            = chain ((x, g) :: m) k (chain ((x, g) :: m) j y) := chain_add _ k j y
        have e2 : chain ((x, g) :: m) (k + j) y
            = chain ((x, g) :: m) j (chain ((x, g) :: m) k y) := by
          rw [Nat.add_comm]
          exact chain_add _ j k y
        rw [hjx] at e1
        rw [hcyc] at e2
        rw [← e1, e2, hjx]
      -- but the chain from x goes to g and never returns
      obtain ⟨k2, rfl⟩ : ∃ k2, k = k2 + 1 := ⟨k - 1, by omega⟩
      have hxg : chain ((x, g) :: m) (k2 + 1) x = chain ((x, g) :: m) k2 g := by
        rw [chain_succ, hpfx]
      rw [hxg, hchain_g k2] at hcycx
      exact hgx k2 hcycx
    · push_neg at hhit
      have hcyc2 : chain m k y = y := by
        rw [← chain_cons_of_avoid' (fun j hj => hhit j hj)]
        exact hcyc
      have hroot := hwf y k hk hcyc2
      have hyx : y ≠ x := by
        intro h
        subst h
        exact hx hroot
      rw [pf_cons, if_neg hyx]
      exact hroot
  refine ⟨hwf', fun y => ?_⟩
  -- rootD is preserved pointwise
  by_cases hhit : ∃ j, chain m j y = x
  · -- the old chain passes through x; the new one shortcuts to g
    have hjx : chain m (Nat.find hhit) y = x := Nat.find_spec hhit
    have hjmin : ∀ i < Nat.find hhit, chain m i y ≠ x := fun i hi => Nat.find_min hhit hi
    have hnew_j : chain ((x, g) :: m) (Nat.find hhit) y = x := by
      rw [chain_cons_of_avoid hjmin, hjx]
    have hold_root : rootD m y = rootD m x := by
      rw [← rootD_chain hwf (Nat.find hhit) y, hjx]
    have hgroot : rootD m g = rootD m x := by
      rw [hg, hp, rootD_pf hwf, rootD_pf hwf]
    rcases exists_root_le_length hwf g with ⟨t, _, htroot⟩
    have htg : chain m t g = rootD m g :=
      (rootD_eq_of_chain hwf (rfl : chain m t g = chain m t g) htroot).symm
    have hnew_chain : chain ((x, g) :: m) (t + (1 + Nat.find hhit)) y = rootD m g := by
      rw [chain_add, chain_add, hnew_j]
      have hx1 : chain ((x, g) :: m) 1 x = g := by
        rw [chain_succ', chain_zero, hpfx]
      rw [hx1, hchain_g t, htg]
    have hrootnew : pf ((x, g) :: m) (rootD m g) = rootD m g := by
      rw [← htg, pf_cons, if_neg (hgx t)]
      exact htroot
    have hres := rootD_eq_of_chain hwf' hnew_chain hrootnew
    rw [hres, hgroot, hold_root]
  · -- the old chain avoids x entirely and is unchanged
    push_neg at hhit
    rcases exists_root_le_length hwf y with ⟨t, _, htroot⟩
    have hty : chain m t y = rootD m y :=
      (rootD_eq_of_chain hwf (rfl : chain m t y = chain m t y) htroot).symm
    have hnew_chain : chain ((x, g) :: m) t y = rootD m y := by
      rw [chain_cons_of_avoid (fun j _ => hhit j), hty]
    have hrootnew : pf ((x, g) :: m) (rootD m y) = rootD m y := by
      rw [← hty, pf_cons, if_neg (hhit t)]
      exact htroot
    exact rootD_eq_of_chain hwf' hnew_chain hrootnew

/-- The `while self._parent[x] != x` loop of `find` with path halving
(`self._parent[x] = self._parent[self._parent[x]]; x = self._parent[x]`),
fuelled; fuel never runs out under `WFuf` (see `findGo_spec`). -/
def findGo : ℕ → List (α × α) → α → List (α × α) × α
  | 0, m, x => (m, x)
  | fuel + 1, m, x =>
    if pf m x = x then (m, x)
    else findGo fuel ((x, pf m (pf m x)) :: m) (pf m (pf m x))

/-- `UnionFind.find` (verify.py 1061-1067 / verify_schematics.py
1029-1035): insert `x` if absent, then walk to the root with path
halving. -/
def findUF (m : List (α × α)) (x : α) : List (α × α) × α :=
  let m0 := if (lookupMap m x).isSome then m else (x, x) :: m
  findGo (m0.length + 1) m0 x

theorem findGo_spec : ∀ (fuel : ℕ) (m : List (α × α)) (x : α), WFuf m →
    (∃ k < fuel, pf m (chain m k x) = chain m k x) →
    WFuf (findGo fuel m x).1 ∧ (findGo fuel m x).2 = rootD m x
      ∧ ∀ y, rootD (findGo fuel m x).1 y = rootD m y := by
  intro fuel
  induction fuel with
  | zero =>
    intro m x _ hk
    rcases hk with ⟨k, hk, _⟩
    omega
  | succ fuel ih =>
    intro m x hwf hk
    by_cases hroot : pf m x = x
    · rw [findGo, if_pos hroot]
      exact ⟨hwf, (rootD_of_root hwf hroot).symm, fun y => rfl⟩
    · rw [findGo, if_neg hroot]
      have hstep := halving_step hwf hroot
      have hg : pf m (pf m x) = chain m 2 x := by
        rw [chain_succ', chain_succ', chain_zero]
      -- a root is reachable from the grandparent within the remaining fuel
      have hk2 : ∃ k < fuel,
          pf ((x, pf m (pf m x)) :: m) (chain ((x, pf m (pf m x)) :: m) k (pf m (pf m x)))
            = chain ((x, pf m (pf m x)) :: m) k (pf m (pf m x)) := by
        rcases hk with ⟨k, hklt, hkroot⟩
        have hk1 : 1 ≤ k := by
          rcases Nat.eq_zero_or_pos k with rfl | h
          · exact absurd hkroot hroot
          · exact h
        have hgchain : ∀ t, chain ((x, pf m (pf m x)) :: m) t (pf m (pf m x))
            = chain m t (pf m (pf m x)) := by
          intro t
          refine chain_cons_of_avoid (fun j _ => ?_)
          have hshift : chain m j (pf m (pf m x)) = chain m (j + 1) (pf m x) := by
            rw [chain_succ]
          rw [hshift]
          exact chain_pf_ne_self hwf hroot (j + 1)
        rcases Nat.lt_or_ge k 2 with hk2 | hk2
        · -- k = 1: the parent is the root, so the grandparent is that root
          have hkeq : k = 1 := by omega
          subst hkeq
          have hproot : pf m (pf m x) = pf m x := by
            have hc := hkroot
            rw [chain_succ', chain_zero] at hc
            exact hc
          refine ⟨0, by omega, ?_⟩
          rw [chain_zero, pf_cons]
          have hgxne : pf m (pf m x) ≠ x := by
            rw [hproot]
            exact hroot
          rw [if_neg hgxne, hproot]
          exact hproot
        · -- k ≥ 2: the old chain from the grandparent reaches the root in k - 2 steps
          refine ⟨k - 2, by omega, ?_⟩
          rw [hgchain (k - 2), pf_cons]
          have hchaink : chain m (k - 2) (pf m (pf m x)) = chain m k x := by
            rw [hg, ← chain_add]
            congr 1
            omega
          have hne : chain m (k - 2) (pf m (pf m x)) ≠ x := by
            have hshift : chain m ((k - 2) + 1) (pf m x) = chain m (k - 2) (pf m (pf m x)) :=
              chain_succ m (k - 2) (pf m x)
            rw [← hshift]
            exact chain_pf_ne_self hwf hroot ((k - 2) + 1)
          rw [if_neg hne, hchaink]
          exact hkroot
      have hrec := ih ((x, pf m (pf m x)) :: m) (pf m (pf m x)) hstep.1 hk2
      refine ⟨hrec.1, ?_, fun y => (hrec.2.2 y).trans (hstep.2 y)⟩
      rw [hrec.2.1, hstep.2]
      rw [hg, rootD_chain hwf]

theorem findUF_spec (m : List (α × α)) (x : α) (hwf : WFuf m) :
    WFuf (findUF m x).1 ∧ (findUF m x).2 = rootD m x
      ∧ ∀ y, rootD (findUF m x).1 y = rootD m y := by
  rw [findUF]
  by_cases hsome : (lookupMap m x).isSome
  · simp only [if_pos hsome]
    rcases exists_root_le_length hwf x with ⟨k, hk, hkr⟩
    exact findGo_spec (m.length + 1) m x hwf ⟨k, by omega, hkr⟩
  · simp only [if_neg hsome]
    -- inserting (x, x) leaves pf unchanged (x was absent, so pf m x = x)
    have hx : pf m x = x := by
      rw [pf]
      rcases hl : lookupMap m x with _ | v
      · rfl
      · rw [hl] at hsome
        simp at hsome
    have hpf_eq : ∀ y, pf ((x, x) :: m) y = pf m y := by
      intro y
      rw [pf_cons]
      by_cases h : y = x
      · rw [if_pos h, h, hx]
      · rw [if_neg h]
    have hchain_eq : ∀ k y, chain ((x, x) :: m) k y = chain m k y := by
      intro k
      induction k with
      | zero => intro y; rfl
      | succ k ihk =>
        intro y
        rw [chain_succ, chain_succ, hpf_eq, ihk]
    have hwf0 : WFuf ((x, x) :: m) := by
      intro y k hk hcyc
      rw [hchain_eq] at hcyc
      rw [hpf_eq]
      exact hwf y k hk hcyc
    have hroot0 : ∀ y, rootD ((x, x) :: m) y = rootD m y := by
      intro y
      rcases exists_root_le_length hwf y with ⟨t, _, htr⟩
      have hty : chain m t y = rootD m y :=
        (rootD_eq_of_chain hwf (rfl : chain m t y = chain m t y) htr).symm
      refine rootD_eq_of_chain hwf0 (k := t) ?_ ?_
      · rw [hchain_eq, hty]
      · rw [hpf_eq, ← hty]
        exact htr
    rcases exists_root_le_length hwf0 x with ⟨k, hk, hkr⟩
    have hspec := findGo_spec (((x, x) :: m).length + 1) ((x, x) :: m) x hwf0
      ⟨k, by omega, hkr⟩
    exact ⟨hspec.1, hspec.2.1.trans (hroot0 x), fun y => (hspec.2.2 y).trans (hroot0 y)⟩

/-- `UnionFind.union` (verify.py 1069-1072 / verify_schematics.py
1037-1040): find both roots and link the first under the second when
they differ. -/
def unionUF (m : List (α × α)) (a b : α) : List (α × α) :=
  let fa := findUF m a
  let fb := findUF fa.1 b
  if fa.2 = fb.2 then fb.1 else (fa.2, fb.2) :: fb.1

/-- Linking two distinct roots: `WFuf` is kept and the first root's
class is redirected onto the second. -/
theorem link_step {m : List (α × α)} (hwf : WFuf m) {ra rb : α}
    (hra : pf m ra = ra) (hrb : pf m rb = rb) (hne : ra ≠ rb) :
    WFuf ((ra, rb) :: m)
      ∧ ∀ y, rootD ((ra, rb) :: m) y = if rootD m y = ra then rb else rootD m y := by
  have hrb_ne : rb ≠ ra := fun h => hne h.symm
  have hpf_rb : pf ((ra, rb) :: m) rb = rb := by
    rw [pf_cons, if_neg hrb_ne, hrb]
  have hpf_ra : pf ((ra, rb) :: m) ra = rb := by
    rw [pf_cons, if_pos rfl]
  have hchain_rb : ∀ t, chain ((ra, rb) :: m) t rb = rb := chain_of_root hpf_rb
  have hwf' : WFuf ((ra, rb) :: m) := by
    intro y k hk hcyc
    by_cases hhit : ∃ j < k, chain ((ra, rb) :: m) j y = ra
    · exfalso
      rcases hhit with ⟨j, hj, hjx⟩
      have hcycx : chain ((ra, rb) :: m) k ra = ra := by
        have e1 : chain ((ra, rb) :: m) (k + j) y
            = chain ((ra, rb) :: m) k (chain ((ra, rb) :: m) j y) := chain_add _ k j y
        have e2 : chain ((ra, rb) :: m) (k + j) y
            = chain ((ra, rb) :: m) j (chain ((ra, rb) :: m) k y) := by
          rw [Nat.add_comm]
          exact chain_add _ j k y
        rw [hjx] at e1
        rw [hcyc] at e2
        rw [← e1, e2, hjx]
      obtain ⟨k2, rfl⟩ : ∃ k2, k = k2 + 1 := ⟨k - 1, by omega⟩
      rw [chain_succ, hpf_ra, hchain_rb k2] at hcycx
      exact hne hcycx.symm
    · push_neg at hhit
      have hcyc2 : chain m k y = y := by
        rw [← chain_cons_of_avoid' (fun j hj => hhit j hj)]
        exact hcyc
      have hroot := hwf y k hk hcyc2
      have hyra : y ≠ ra := fun h => hhit 0 hk h
      rw [pf_cons, if_neg hyra]
      exact hroot
  refine ⟨hwf', fun y => ?_⟩
  by_cases hy : rootD m y = ra
  · rw [if_pos hy]
    -- the old chain reaches ra; the new link then leads to rb, a root
    rcases exists_root_le_length hwf y with ⟨t, _, htr⟩
    have hty : chain m t y = ra :=
      ((rootD_eq_of_chain hwf (rfl : chain m t y = chain m t y) htr).symm).trans hy
    have hex : ∃ j, chain m j y = ra := ⟨t, hty⟩
    have hjra : chain m (Nat.find hex) y = ra := Nat.find_spec hex
    have hjmin : ∀ i < Nat.find hex, chain m i y ≠ ra := fun i hi => Nat.find_min hex hi
    have hnew_j : chain ((ra, rb) :: m) (Nat.find hex) y = ra := by
      rw [chain_cons_of_avoid hjmin, hjra]
    have hnew_chain : chain ((ra, rb) :: m) (1 + Nat.find hex) y = rb := by
      rw [chain_add, hnew_j, chain_succ', chain_zero, hpf_ra]
    exact rootD_eq_of_chain hwf' hnew_chain hpf_rb
  · rw [if_neg hy]
    have hhit : ∀ j, chain m j y ≠ ra := by
      intro j hj
      apply hy
      rw [← rootD_chain hwf j y, hj]
      exact rootD_of_root hwf hra
    rcases exists_root_le_length hwf y with ⟨t, _, htr⟩
    have hty : chain m t y = rootD m y :=
      (rootD_eq_of_chain hwf (rfl : chain m t y = chain m t y) htr).symm
    have hnew_chain : chain ((ra, rb) :: m) t y = rootD m y := by
      rw [chain_cons_of_avoid (fun j _ => hhit j), hty]
    have hrootnew : pf ((ra, rb) :: m) (rootD m y) = rootD m y := by
      rw [← hty, pf_cons, if_neg (hhit t)]
      exact htr
    exact rootD_eq_of_chain hwf' hnew_chain hrootnew

/-- How linking redirects roots, as an iff on the resulting equality. -/
theorem redirect_iff {A B u v : α} (hne : A ≠ B) :
    ((if u = A then B else u) = (if v = A then B else v)) ↔
      (u = v ∨ (u = A ∧ B = v) ∨ (u = B ∧ A = v)) := by
  by_cases hx : u = A
  · by_cases hy : v = A
    · rw [if_pos hx, if_pos hy]
      constructor
      · intro _
        exact Or.inl (hx.trans hy.symm)
      · intro _
        rfl
    · rw [if_pos hx, if_neg hy]
      constructor
      · intro h
        exact Or.inr (Or.inl ⟨hx, h⟩)
      · rintro (h | ⟨_, h⟩ | ⟨h1, h2⟩)
        · exact absurd (h ▸ hx) hy
        · exact h
        · exact absurd (hx.symm.trans h1) hne
  · by_cases hy : v = A
    · rw [if_neg hx, if_pos hy]
      constructor
      · intro h
        exact Or.inr (Or.inr ⟨h, hy.symm⟩)
      · rintro (h | ⟨h1, _⟩ | ⟨h1, _⟩)
        · exact absurd (h.symm ▸ hy) hx
        · exact absurd h1 hx
        · exact h1
    · rw [if_neg hx, if_neg hy]
      constructor
      · intro h
        exact Or.inl h
      · rintro (h | ⟨h1, _⟩ | ⟨_, h2⟩)
        · exact h
        · exact absurd h1 hx
        · exact absurd h2.symm hy

theorem unionUF_spec (m : List (α × α)) (a b : α) (hwf : WFuf m) :
    WFuf (unionUF m a b)
      ∧ ∀ x y, (rootD (unionUF m a b) x = rootD (unionUF m a b) y ↔
          (rootD m x = rootD m y
            ∨ (rootD m x = rootD m a ∧ rootD m b = rootD m y)
            ∨ (rootD m x = rootD m b ∧ rootD m a = rootD m y))) := by
  obtain ⟨hwf1, hra, hpres1⟩ := findUF_spec m a hwf
  obtain ⟨hwf2, hrb, hpres2⟩ := findUF_spec (findUF m a).1 b hwf1
  have hr2 : ∀ y, rootD (findUF (findUF m a).1 b).1 y = rootD m y :=
    fun y => (hpres2 y).trans (hpres1 y)
  have hrbm : (findUF (findUF m a).1 b).2 = rootD m b := hrb.trans (hpres1 b)
  have hunion : unionUF m a b =
      if (findUF m a).2 = (findUF (findUF m a).1 b).2
      then (findUF (findUF m a).1 b).1
      else ((findUF m a).2, (findUF (findUF m a).1 b).2) :: (findUF (findUF m a).1 b).1 :=
    rfl
  by_cases heq : (findUF m a).2 = (findUF (findUF m a).1 b).2
  · rw [hunion, if_pos heq]
    have hab : rootD m a = rootD m b := by
      rw [← hra, ← hrbm]
      exact heq
    refine ⟨hwf2, fun x y => ?_⟩
    rw [hr2 x, hr2 y]
    constructor
    · intro h
      exact Or.inl h
    · rintro (h | ⟨h1, h2⟩ | ⟨h1, h2⟩)
      · exact h
      · exact (h1.trans hab).trans h2
      · exact (h1.trans hab.symm).trans h2
  · rw [hunion, if_neg heq]
    have hA : pf (findUF (findUF m a).1 b).1 ((findUF m a).2) = (findUF m a).2 := by
      have h1 : rootD (findUF (findUF m a).1 b).1 a = (findUF m a).2 := by
        rw [hr2 a, hra]
      rw [← h1]
      exact rootD_isRoot hwf2 a
    have hB : pf (findUF (findUF m a).1 b).1 ((findUF (findUF m a).1 b).2)
        = (findUF (findUF m a).1 b).2 := by
      have h1 : rootD (findUF (findUF m a).1 b).1 b = (findUF (findUF m a).1 b).2 := by
        rw [hr2 b, hrbm]
      rw [← h1]
      exact rootD_isRoot hwf2 b
    obtain ⟨hwf3, hroot3⟩ := link_step hwf2 hA hB heq
    refine ⟨hwf3, fun x y => ?_⟩
    rw [hroot3 x, hroot3 y, hr2 x, hr2 y, hra, hrbm]
    have hne : rootD m a ≠ rootD m b := by
      rw [← hra, ← hrbm]
      exact heq
    exact redirect_iff (u := rootD m x) (v := rootD m y) hne

/-- Processing a list of union edges, starting from a given state. -/
def runUnions (m : List (α × α)) (es : List (α × α)) : List (α × α) :=
  es.foldl (fun m e => unionUF m e.1 e.2) m

/-- The relation generated by an edge list. -/
def edgeRel (es : List (α × α)) (u v : α) : Prop := (u, v) ∈ es

theorem eqvGen_mono {R S : α → α → Prop} (h : ∀ u v, R u v → S u v) {x y : α}
    (hxy : Relation.EqvGen R x y) : Relation.EqvGen S x y := by
  induction hxy with
  | rel u v huv => exact Relation.EqvGen.rel u v (h u v huv)
  | refl u => exact Relation.EqvGen.refl u
  | symm u v _ ih => exact Relation.EqvGen.symm u v ih
  | trans u v w _ _ ih1 ih2 => exact Relation.EqvGen.trans u v w ih1 ih2

theorem eqvGen_congr {R S : α → α → Prop} (h : ∀ u v, R u v ↔ S u v) (x y : α) :
    Relation.EqvGen R x y ↔ Relation.EqvGen S x y :=
  ⟨eqvGen_mono (fun u v => (h u v).mp), eqvGen_mono (fun u v => (h u v).mpr)⟩

theorem eqvGen_bot {x y : α} :
    Relation.EqvGen (fun u v : α => (u, v) ∈ ([] : List (α × α))) x y ↔ x = y := by
  constructor
  · intro h
    induction h with
    | rel u v huv => cases huv
    | refl u => rfl
    | symm u v _ ih => exact ih.symm
    | trans u v w _ _ ih1 ih2 => exact ih1.trans ih2
  · rintro rfl
    exact Relation.EqvGen.refl x

/-- Adding one edge to the generated equivalence. -/
theorem eqvGen_insert (R : α → α → Prop) (a b x y : α) :
    Relation.EqvGen (fun u v => R u v ∨ (u = a ∧ v = b)) x y ↔
      (Relation.EqvGen R x y
        ∨ (Relation.EqvGen R x a ∧ Relation.EqvGen R b y)
        ∨ (Relation.EqvGen R x b ∧ Relation.EqvGen R a y)) := by
  constructor
  · intro h
    induction h with
    | rel u v huv =>
      rcases huv with huv | ⟨rfl, rfl⟩
      · exact Or.inl (Relation.EqvGen.rel u v huv)
      · exact Or.inr (Or.inl ⟨Relation.EqvGen.refl u, Relation.EqvGen.refl v⟩)
    | refl u => exact Or.inl (Relation.EqvGen.refl u)
    | symm u v _ ih =>
      rcases ih with h | ⟨h1, h2⟩ | ⟨h1, h2⟩
      · exact Or.inl (Relation.EqvGen.symm u v h)
      · exact Or.inr (Or.inr ⟨Relation.EqvGen.symm _ _ h2, Relation.EqvGen.symm _ _ h1⟩)
      · exact Or.inr (Or.inl ⟨Relation.EqvGen.symm _ _ h2, Relation.EqvGen.symm _ _ h1⟩)
    | trans u v w _ _ ih1 ih2 =>
      rcases ih1 with h1 | ⟨h1, h1'⟩ | ⟨h1, h1'⟩ <;>
        rcases ih2 with h2 | ⟨h2, h2'⟩ | ⟨h2, h2'⟩
      · exact Or.inl (Relation.EqvGen.trans _ _ _ h1 h2)
      · exact Or.inr (Or.inl ⟨Relation.EqvGen.trans _ _ _ h1 h2, h2'⟩)
      · exact Or.inr (Or.inr ⟨Relation.EqvGen.trans _ _ _ h1 h2, h2'⟩)
      · exact Or.inr (Or.inl ⟨h1, Relation.EqvGen.trans _ _ _ h1' h2⟩)
      · exact Or.inr (Or.inl ⟨h1, h2'⟩)
      · exact Or.inl (Relation.EqvGen.trans _ _ _ h1 h2')
      · exact Or.inr (Or.inr ⟨h1, Relation.EqvGen.trans _ _ _ h1' h2⟩)
      · exact Or.inl (Relation.EqvGen.trans _ _ _ h1 h2')
      · exact Or.inr (Or.inr ⟨h1, h2'⟩)
  · have hedge : Relation.EqvGen (fun u v => R u v ∨ (u = a ∧ v = b)) a b :=
      Relation.EqvGen.rel a b (Or.inr ⟨rfl, rfl⟩)
    have hmono : ∀ u v, Relation.EqvGen R u v →
        Relation.EqvGen (fun u v => R u v ∨ (u = a ∧ v = b)) u v :=
      fun u v => eqvGen_mono (fun p q hpq => Or.inl hpq)
    rintro (h | ⟨h1, h2⟩ | ⟨h1, h2⟩)
    · exact hmono x y h
    · exact Relation.EqvGen.trans _ _ _ (hmono x a h1)
        (Relation.EqvGen.trans _ _ _ hedge (hmono b y h2))
    · exact Relation.EqvGen.trans _ _ _ (hmono x b h1)
        (Relation.EqvGen.trans _ _ _ (Relation.EqvGen.symm _ _ hedge) (hmono a y h2))

/-- The fundamental theorem of the embedded union-find: after running a
list of union edges from the empty state, two elements have equal roots
iff they are related by the equivalence closure of the edge set. -/
theorem runUnions_spec (es : List (α × α)) :
    WFuf (runUnions [] es)
      ∧ ∀ x y, (rootD (runUnions [] es) x = rootD (runUnions [] es) y ↔
          Relation.EqvGen (edgeRel es) x y) := by
  induction es using List.reverseRecOn with
  | nil =>
    refine ⟨fun x k _ _ => rfl, fun x y => ?_⟩
    have hx : rootD (runUnions ([] : List (α × α)) []) x = x := rfl
    have hy : rootD (runUnions ([] : List (α × α)) []) y = y := rfl
    rw [hx, hy]
    exact (eqvGen_bot (x := x) (y := y)).symm
  | append_singleton es e ih =>
    have hrun : runUnions ([] : List (α × α)) (es ++ [e])
        = unionUF (runUnions [] es) e.1 e.2 := by
      rw [runUnions, List.foldl_append]
      rfl
    obtain ⟨hwf, hiff⟩ := ih
    obtain ⟨hwf', hiff'⟩ := unionUF_spec (runUnions [] es) e.1 e.2 hwf
    rw [hrun]
    refine ⟨hwf', fun x y => ?_⟩
    rw [hiff' x y, hiff x y, hiff x e.1, hiff x e.2, hiff e.2 y, hiff e.1 y]
    have hmem : ∀ u v : α, edgeRel (es ++ [e]) u v ↔ (edgeRel es u v ∨ (u = e.1 ∧ v = e.2)) := by
      intro u v
      rw [edgeRel, edgeRel, List.mem_append, List.mem_singleton]
      constructor
      · rintro (h | h)
        · exact Or.inl h
        · exact Or.inr ⟨congrArg Prod.fst h, congrArg Prod.snd h⟩
      · rintro (h | ⟨h1, h2⟩)
        · exact Or.inl h
        · refine Or.inr ?_
          rw [h1, h2]
    rw [eqvGen_congr hmem x y, eqvGen_insert]

end UnionFindModel

/-! ## The net builder of `check_netlist` (verify_schematics.py 1043-1247)

File loading and the expected/forbidden connection tables are out of
scope; the embedded part is the construction of the union-find state
and of the `nets` mapping, and the `on_same_net` query.  The input is
the sequences the code iterates over, with positions already snapped:

* `wires`: the wire list (in `graphicalItems` order); each wire is
  unioned endpoint-to-endpoint as collected;
* `sheetPins`: `(position, "SheetName:PinName")` in sheet/pin order —
  the code builds the dict `sheet_pin_ids` from it;
* `labels`: `(position, text)` in `sch.labels` order — the code builds
  the dict `label_pts` from it;
* `compPins`: `(position, "Ref:pin_num")` in symbol/pin order — the
  code builds `comp_pin_ids` from it (only its positions matter to the
  nets);
* `junctions`: junction positions. -/

/-- Input sequences of the net builder. -/
structure NetData where
  wires : List (Pt × Pt)
  sheetPins : List (Pt × String)
  labels : List (Pt × String)
  compPins : List (Pt × String)
  junctions : List Pt
deriving DecidableEq

/-- Python dict built by repeated assignment: an update keeps the key's
position, a new key is appended. -/
def upsert {κ ν : Type} [DecidableEq κ] (m : List (κ × ν)) (k : κ) (v : ν) : List (κ × ν) :=
  if m.any (fun e => decide (e.1 = k)) then
    m.map (fun e => if e.1 = k then (k, v) else e)
  else m ++ [(k, v)]

/-- Build a dict from an assignment sequence. -/
def buildMap {κ ν : Type} [DecidableEq κ] (l : List (κ × ν)) : List (κ × ν) :=
  l.foldl (fun m e => upsert m e.1 e.2) []

/-- The union-find state after the wire pass (`uf.union(p1, p2)` for
every wire). -/
def uf_wires (d : NetData) : List (Pt × Pt) :=
  d.wires.foldl (fun m w => unionUF m w.1 w.2) []

/-- The `all_pts` set: wire endpoints, sheet pin / label / component pin
positions, junctions. -/
def all_pts (d : NetData) : List Pt :=
  (all_endpoints d.wires ++ d.sheetPins.map Prod.fst ++ d.labels.map Prod.fst
    ++ d.compPins.map Prod.fst ++ d.junctions).dedup

/-- The point-on-wire test of the merge loop (verify_schematics.py
1120-1131): on the wire's line and within its tolerance-inflated span
(endpoints included). -/
def onWireB (pt : Pt) (w : Pt × Pt) : Bool :=
  if horizB w then
    decide (pabs (pt.2 - w.1.2) < TOL) && decide (min w.1.1 w.2.1 - TOL ≤ pt.1)
      && decide (pt.1 ≤ max w.1.1 w.2.1 + TOL)
  else if vertB w then
    decide (pabs (pt.1 - w.1.1) < TOL) && decide (min w.1.2 w.2.2 - TOL ≤ pt.2)
      && decide (pt.2 ≤ max w.1.2 w.2.2 + TOL)
  else false

/-- The merge loop: union every touching point with the wire's first
endpoint. -/
def uf_merge (d : NetData) : List (Pt × Pt) :=
  (all_pts d).foldl (fun m pt =>
    d.wires.foldl (fun m w => if onWireB pt w then unionUF m pt w.1 else m) m)
    (uf_wires d)

/-- `label_groups`: group the `label_pts` dict's points by label text. -/
def label_groups (d : NetData) : List (String × List Pt) :=
  groupBy Prod.snd Prod.fst (buildMap d.labels)

/-- The star of unions of one label group: the first point is unioned
with each of the rest (`union(pts[0], pts[i])`). -/
def star_union (m : List (Pt × Pt)) : List Pt → List (Pt × Pt)
  | [] => m
  | p :: rest => rest.foldl (fun m q => unionUF m p q) m

/-- The same-name label pass: union each group's first point with the
rest. -/
def uf_labels (d : NetData) : List (Pt × Pt) :=
  (label_groups d).foldl (fun m g => star_union m g.2) (uf_merge d)

/-- `defaultdict(set)` update of `nets[root].add(sid)`. -/
def addMember (nets : List (Pt × List String)) (r : Pt) (sid : String) :
    List (Pt × List String) :=
  if nets.any (fun e => decide (e.1 = r)) then
    nets.map (fun e => if e.1 = r then (e.1, if sid ∈ e.2 then e.2 else e.2 ++ [sid]) else e)
  else nets ++ [(r, [sid])]

/-- The identifiers added to `nets`, in program order: sheet pin ids,
then `"label:" + text` for each labelled point. -/
def nets_entries (d : NetData) : List (Pt × String) :=
  buildMap d.sheetPins ++ (buildMap d.labels).map (fun e => (e.1, "label:" ++ e.2))

/-- The nets construction: thread the union-find state through the
`uf.find` calls while accumulating `nets`. -/
def build_nets (d : NetData) : List (Pt × Pt) × List (Pt × List String) :=
  (nets_entries d).foldl (fun st e =>
    ((findUF st.1 e.1).1, addMember st.2 (findUF st.1 e.1).2 e.2))
    (uf_labels d, [])

/-- `on_same_net(id_a, id_b)` (verify_schematics.py 1148-1153): some net
contains both identifiers. -/
def on_same_net (d : NetData) (id_a id_b : String) : Bool :=
  (build_nets d).2.any (fun e => decide (id_a ∈ e.2) && decide (id_b ∈ e.2))

/-! ### The union edges performed by the builder, as one list -/

/-- The star of union edges of one label group. -/
def star_edges : List Pt → List (Pt × Pt)
  | [] => []
  | p :: rest => rest.map (fun q => (p, q))

/-- All union edges of the net builder, in program order. -/
def edge_list (d : NetData) : List (Pt × Pt) :=
  d.wires
    ++ (all_pts d).flatMap (fun pt =>
        d.wires.filterMap (fun w => if onWireB pt w then some (pt, w.1) else none))
    ++ (label_groups d).flatMap (fun g => star_edges g.2)

theorem foldl_congr_fun {β γ : Type} {f g : γ → β → γ} (h : ∀ acc a, f acc a = g acc a)
    (l : List β) (init : γ) : l.foldl f init = l.foldl g init := by
  have hfg : f = g := funext (fun acc => funext (h acc))
  rw [hfg]

theorem foldl_union_filterMap {α β : Type} [DecidableEq α]
    (p : β → Bool) (f g : β → α) :
    ∀ (l : List β) (m : List (α × α)),
      l.foldl (fun m a => if p a then unionUF m (f a) (g a) else m) m
        = runUnions m (l.filterMap (fun a => if p a then some (f a, g a) else none)) := by
  intro l
  induction l with
  | nil => intro m; rfl
  | cons a l ih =>
    intro m
    by_cases hp : p a
    · rw [List.foldl_cons, if_pos hp, ih, List.filterMap_cons]
      rw [if_pos hp]
      rfl
    · rw [List.foldl_cons, if_neg hp, ih, List.filterMap_cons]
      rw [if_neg hp]

theorem runUnions_append {α : Type} [DecidableEq α] (m : List (α × α))
    (es1 es2 : List (α × α)) :
    runUnions m (es1 ++ es2) = runUnions (runUnions m es1) es2 := by
  rw [runUnions, List.foldl_append]
  rfl

theorem foldl_runUnions_flatMap {α β : Type} [DecidableEq α] (E : β → List (α × α)) :
    ∀ (l : List β) (m : List (α × α)),
      l.foldl (fun m b => runUnions m (E b)) m = runUnions m (l.flatMap E) := by
  intro l
  induction l with
  | nil => intro m; rfl
  | cons b l ih =>
    intro m
    rw [List.foldl_cons, ih, List.flatMap_cons, runUnions_append]

theorem star_union_eq (m : List (Pt × Pt)) (grp : List Pt) :
    star_union m grp = runUnions m (star_edges grp) := by
  cases grp with
  | nil => rfl
  | cons p rest =>
    rw [star_union, star_edges, runUnions, List.foldl_map]

/-- The net builder's union phases are exactly `runUnions` over
`edge_list`. -/
theorem uf_labels_eq (d : NetData) : uf_labels d = runUnions [] (edge_list d) := by
  have h1 : uf_wires d = runUnions [] d.wires := rfl
  have h2 : uf_merge d = runUnions (uf_wires d)
      ((all_pts d).flatMap (fun pt =>
        d.wires.filterMap (fun w => if onWireB pt w then some (pt, w.1) else none))) := by
    rw [uf_merge]
    rw [foldl_congr_fun (f := fun m pt =>
        d.wires.foldl (fun m w => if onWireB pt w then unionUF m pt w.1 else m) m)
      (g := fun m pt => runUnions m
        (d.wires.filterMap (fun w => if onWireB pt w then some (pt, w.1) else none)))
      (fun m pt => foldl_union_filterMap (onWireB pt) (fun _ => pt) (fun w => w.1) d.wires m)]
    rw [foldl_runUnions_flatMap]
  have h3 : uf_labels d = runUnions (uf_merge d)
      ((label_groups d).flatMap (fun g => star_edges g.2)) := by
    rw [uf_labels]
    rw [foldl_congr_fun (f := fun m (g : String × List Pt) => star_union m g.2)
      (g := fun m g => runUnions m (star_edges g.2))
      (fun m g => star_union_eq m g.2)]
    rw [foldl_runUnions_flatMap]
  rw [edge_list, runUnions_append, runUnions_append, ← h1, ← h2, ← h3]

/-- Well-formedness and the net semantics of the builder's union-find
state: equal roots iff related by the closure of the performed edges. -/
theorem uf_labels_spec (d : NetData) :
    WFuf (uf_labels d)
      ∧ ∀ x y, (rootD (uf_labels d) x = rootD (uf_labels d) y ↔
          Relation.EqvGen (edgeRel (edge_list d)) x y) := by
  rw [uf_labels_eq]
  exact runUnions_spec (edge_list d)

/-! ### The `nets` mapping -/

/-- The pure form of the nets accumulation, with a fixed root
function. -/
def netsOf (roots : Pt → Pt) (entries : List (Pt × String)) : List (Pt × List String) :=
  entries.foldl (fun nets e => addMember nets (roots e.1) e.2) []

theorem build_fold_spec :
    ∀ (entries : List (Pt × String)) (uf : List (Pt × Pt)) (nets0 : List (Pt × List String)),
      WFuf uf →
      WFuf (entries.foldl (fun st e =>
          ((findUF st.1 e.1).1, addMember st.2 (findUF st.1 e.1).2 e.2)) (uf, nets0)).1
      ∧ (∀ y, rootD (entries.foldl (fun st e =>
          ((findUF st.1 e.1).1, addMember st.2 (findUF st.1 e.1).2 e.2)) (uf, nets0)).1 y
        = rootD uf y)
      ∧ (entries.foldl (fun st e =>
          ((findUF st.1 e.1).1, addMember st.2 (findUF st.1 e.1).2 e.2)) (uf, nets0)).2
        = entries.foldl (fun nets e => addMember nets (rootD uf e.1) e.2) nets0 := by
  intro entries
  induction entries with
  | nil => intro uf nets0 hwf; exact ⟨hwf, fun y => rfl, rfl⟩
  | cons e rest ih =>
    intro uf nets0 hwf
    obtain ⟨hwf1, hfr, hpres⟩ := findUF_spec uf e.1 hwf
    obtain ⟨ih1, ih2, ih3⟩ := ih (findUF uf e.1).1
      (addMember nets0 (findUF uf e.1).2 e.2) hwf1
    refine ⟨ih1, fun y => (ih2 y).trans (hpres y), ?_⟩
    rw [List.foldl_cons, List.foldl_cons, ih3, hfr]
    rw [foldl_congr_fun
      (f := fun nets (e2 : Pt × String) => addMember nets (rootD (findUF uf e.1).1 e2.1) e2.2)
      (g := fun nets (e2 : Pt × String) => addMember nets (rootD uf e2.1) e2.2)
      (fun nets e2 => by dsimp only; rw [hpres e2.1])]

theorem build_nets_spec (d : NetData) :
    WFuf (build_nets d).1
      ∧ (∀ y, rootD (build_nets d).1 y = rootD (uf_labels d) y)
      ∧ (build_nets d).2 = netsOf (fun p => rootD (uf_labels d) p) (nets_entries d) :=
  build_fold_spec (nets_entries d) (uf_labels d) [] (uf_labels_spec d).1

/-- Membership in the accumulated nets: an identifier sits under a root
iff some processed entry has that identifier and that root. -/
theorem addMember_mem (nets : List (Pt × List String)) (r0 : Pt) (sid : String)
    (r : Pt) (s : String) :
    (∃ en ∈ addMember nets r0 sid, en.1 = r ∧ s ∈ en.2)
      ↔ ((∃ en ∈ nets, en.1 = r ∧ s ∈ en.2) ∨ (r = r0 ∧ s = sid)) := by
  rw [addMember]
  by_cases hany : nets.any (fun e => decide (e.1 = r0)) = true
  · rw [if_pos hany]
    constructor
    · rintro ⟨en1, hen1, hkey, hs⟩
      rcases List.mem_map.mp hen1 with ⟨en, hen, rfl⟩
      by_cases hk : en.1 = r0
      · rw [if_pos hk] at hkey hs
        simp only at hkey hs
        by_cases hmem : sid ∈ en.2
        · rw [if_pos hmem] at hs
          exact Or.inl ⟨en, hen, hkey, hs⟩
        · rw [if_neg hmem] at hs
          rcases List.mem_append.mp hs with hs | hs
          · exact Or.inl ⟨en, hen, hkey, hs⟩
          · exact Or.inr ⟨hkey.symm.trans hk, List.mem_singleton.mp hs⟩
      · rw [if_neg hk] at hkey hs
        exact Or.inl ⟨en, hen, hkey, hs⟩
    · rintro (⟨en, hen, hkey, hs⟩ | ⟨h1, h2⟩)
      · refine ⟨if en.1 = r0 then (en.1, if sid ∈ en.2 then en.2 else en.2 ++ [sid]) else en,
          List.mem_map_of_mem _ hen, ?_⟩
        by_cases hk : en.1 = r0
        · rw [if_pos hk]
          refine ⟨hkey, ?_⟩
          by_cases hmem : sid ∈ en.2
          · rw [if_pos hmem]
            exact hs
          · rw [if_neg hmem]
            exact List.mem_append.mpr (Or.inl hs)
        · rw [if_neg hk]
          exact ⟨hkey, hs⟩
      · rcases List.any_eq_true.mp hany with ⟨en, hen, hk⟩
        simp only [decide_eq_true_eq] at hk
        refine ⟨(en.1, if sid ∈ en.2 then en.2 else en.2 ++ [sid]), ?_, by rw [hk, h1], ?_⟩
        · have hmm := List.mem_map_of_mem
            (fun e => if e.1 = r0 then (e.1, if sid ∈ e.2 then e.2 else e.2 ++ [sid]) else e)
            hen
          simp only [if_pos hk] at hmm
          exact hmm
        · rw [h2]
          by_cases hmem : sid ∈ en.2
          · rw [if_pos hmem]
            exact hmem
          · rw [if_neg hmem]
            exact List.mem_append.mpr (Or.inr (List.mem_singleton.mpr rfl))
  · rw [if_neg hany]
    constructor
    · rintro ⟨en, hen, hkey, hs⟩
      rcases List.mem_append.mp hen with hen | hen
      · exact Or.inl ⟨en, hen, hkey, hs⟩
      · have hen2 : en = (r0, [sid]) := List.mem_singleton.mp hen
        rw [hen2] at hkey hs
        exact Or.inr ⟨hkey.symm, List.mem_singleton.mp hs⟩
    · rintro (⟨en, hen, hkey, hs⟩ | ⟨h1, h2⟩)
      · exact ⟨en, List.mem_append.mpr (Or.inl hen), hkey, hs⟩
      · refine ⟨(r0, [sid]), List.mem_append.mpr (Or.inr (List.mem_singleton.mpr rfl)),
          h1.symm, ?_⟩
        rw [h2]
        exact List.mem_singleton.mpr rfl

/-- Membership in the accumulated nets: an identifier sits under a root
iff some processed entry has that identifier and that root. -/
theorem netsOf_mem (roots : Pt → Pt) :
    ∀ (entries : List (Pt × String)) (r : Pt) (s : String),
      (∃ en ∈ netsOf roots entries, en.1 = r ∧ s ∈ en.2)
        ↔ ∃ e ∈ entries, roots e.1 = r ∧ e.2 = s := by
  intro entries
  induction entries using List.reverseRecOn with
  | nil =>
    intro r s
    constructor
    · rintro ⟨en, hen, _⟩
      cases hen
    · rintro ⟨e, he, _⟩
      cases he
  | append_singleton rest e ih =>
    intro r s
    have hfold : netsOf roots (rest ++ [e]) = addMember (netsOf roots rest) (roots e.1) e.2 := by
      rw [netsOf, List.foldl_append]
      rfl
    rw [hfold, addMember_mem, ih r s]
    constructor
    · rintro (⟨e2, he2, h1, h2⟩ | ⟨h1, h2⟩)
      · exact ⟨e2, List.mem_append.mpr (Or.inl he2), h1, h2⟩
      · exact ⟨e, List.mem_append.mpr (Or.inr (List.mem_singleton.mpr rfl)), h1.symm, h2.symm⟩
    · rintro ⟨e2, he2, h1, h2⟩
      rcases List.mem_append.mp he2 with he2 | he2
      · exact Or.inl ⟨e2, he2, h1, h2⟩
      · rw [List.mem_singleton.mp he2] at h1 h2
        exact Or.inr ⟨h1.symm, h2.symm⟩

/-- The accumulated nets have pairwise distinct root keys. -/
theorem netsOf_keys_nodup (roots : Pt → Pt) :
    ∀ entries : List (Pt × String), ((netsOf roots entries).map Prod.fst).Nodup := by
  have haddkeys : ∀ (nets : List (Pt × List String)) (r0 : Pt) (sid : String),
      (nets.map Prod.fst).Nodup → ((addMember nets r0 sid).map Prod.fst).Nodup := by
    intro nets r0 sid hnd
    rw [addMember]
    by_cases hany : nets.any (fun e => decide (e.1 = r0)) = true
    · rw [if_pos hany]
      have hkeys : (nets.map (fun e =>
          if e.1 = r0 then (e.1, if sid ∈ e.2 then e.2 else e.2 ++ [sid]) else e)).map Prod.fst
          = nets.map Prod.fst := by
        rw [List.map_map]
        refine List.map_congr_left (fun en _ => ?_)
        by_cases hk : en.1 = r0
        · rw [Function.comp_apply, if_pos hk]
        · rw [Function.comp_apply, if_neg hk]
      rw [hkeys]
      exact hnd
    · rw [if_neg hany]
      rw [List.map_append]
      rw [List.nodup_append]
      refine ⟨hnd, List.nodup_singleton r0, ?_⟩
      intro k hk hk2
      simp only [List.map_cons, List.map_nil, List.mem_singleton] at hk2
      rcases List.mem_map.mp hk with ⟨en, hen, rfl⟩
      exact hany (List.any_eq_true.mpr ⟨en, hen, by simp [hk2]⟩)
  intro entries
  induction entries using List.reverseRecOn with
  | nil => exact List.nodup_nil
  | append_singleton rest e ih =>
    have hfold : netsOf roots (rest ++ [e]) = addMember (netsOf roots rest) (roots e.1) e.2 := by
      rw [netsOf, List.foldl_append]
      rfl
    rw [hfold]
    exact haddkeys _ _ _ ih

/-- `on_same_net` queried on the builder's result: true iff two entries
with the queried identifiers have the same root in `uf_labels`. -/
theorem on_same_net_iff (d : NetData) (a b : String) :
    on_same_net d a b = true
      ↔ ∃ ea ∈ nets_entries d, ∃ eb ∈ nets_entries d,
          ea.2 = a ∧ eb.2 = b
            ∧ rootD (uf_labels d) ea.1 = rootD (uf_labels d) eb.1 := by
  obtain ⟨_, _, hnets⟩ := build_nets_spec d
  rw [on_same_net, hnets, List.any_eq_true]
  constructor
  · rintro ⟨en, hen, hab⟩
    simp only [Bool.and_eq_true, decide_eq_true_eq] at hab
    have ha := (netsOf_mem (fun p => rootD (uf_labels d) p) (nets_entries d) en.1 a).mp
      ⟨en, hen, rfl, hab.1⟩
    have hb := (netsOf_mem (fun p => rootD (uf_labels d) p) (nets_entries d) en.1 b).mp
      ⟨en, hen, rfl, hab.2⟩
    rcases ha with ⟨ea, hea, hra, hsa⟩
    rcases hb with ⟨eb, heb, hrb, hsb⟩
    exact ⟨ea, hea, eb, heb, hsa, hsb, hra.trans hrb.symm⟩
  · rintro ⟨ea, hea, eb, heb, hsa, hsb, hr⟩
    have ha := (netsOf_mem (fun p => rootD (uf_labels d) p) (nets_entries d)
      (rootD (uf_labels d) ea.1) a).mpr ⟨ea, hea, rfl, hsa⟩
    have hb := (netsOf_mem (fun p => rootD (uf_labels d) p) (nets_entries d)
      (rootD (uf_labels d) ea.1) b).mpr ⟨eb, heb, hr.symm, hsb⟩
    rcases ha with ⟨ena, hena, hka, hma⟩
    rcases hb with ⟨enb, henb, hkb, hmb⟩
    have hsame : ena = enb :=
      List.inj_on_of_nodup_map (netsOf_keys_nodup (fun p => rootD (uf_labels d) p)
        (nets_entries d)) hena henb (hka.trans hkb.symm)
    refine ⟨ena, hena, ?_⟩
    simp only [Bool.and_eq_true, decide_eq_true_eq]
    exact ⟨hma, hsame ▸ hmb⟩

/-! ### Functional entry lists and `buildMap` membership -/

/-- An assignment sequence is functional when no key is assigned two
different values (the dict it builds then loses nothing). -/
abbrev FunctionalOn {κ ν : Type} (l : List (κ × ν)) : Prop :=
  ∀ e ∈ l, ∀ f ∈ l, e.1 = f.1 → e.2 = f.2

theorem FunctionalOn.of_append_singleton {κ ν : Type} {l : List (κ × ν)} {a : κ × ν}
    (h : FunctionalOn (l ++ [a])) : FunctionalOn l :=
  fun e he f hf => h e (List.mem_append.mpr (Or.inl he)) f (List.mem_append.mpr (Or.inl hf))

theorem FunctionalOn.perm {κ ν : Type} {l l2 : List (κ × ν)} (hp : l.Perm l2)
    (h : FunctionalOn l) : FunctionalOn l2 :=
  fun e he f hf => h e (hp.mem_iff.mpr he) f (hp.mem_iff.mpr hf)

theorem buildMap_append_singleton {κ ν : Type} [DecidableEq κ]
    (l : List (κ × ν)) (a : κ × ν) :
    buildMap (l ++ [a]) = upsert (buildMap l) a.1 a.2 := by
  rw [buildMap, List.foldl_append]
  rfl

/-- On a functional assignment sequence, the dict holds exactly the
assigned pairs. -/
theorem mem_buildMap_functional {κ ν : Type} [DecidableEq κ] :
    ∀ l : List (κ × ν), FunctionalOn l → ∀ e : κ × ν, (e ∈ buildMap l ↔ e ∈ l) := by
  intro l
  induction l using List.reverseRecOn with
  | nil =>
    intro _ e
    exact Iff.rfl
  | append_singleton rest a ih =>
    intro hf e
    have ih2 := ih hf.of_append_singleton
    rw [buildMap_append_singleton, upsert]
    by_cases hany : (buildMap rest).any (fun x => decide (x.1 = a.1)) = true
    · rw [if_pos hany]
      constructor
      · intro hmem
        rcases List.mem_map.mp hmem with ⟨w, hw, hwe⟩
        by_cases hk : w.1 = a.1
        · rw [if_pos hk] at hwe
          rw [← hwe, ← Prod.mk.eta (p := a)]
          exact List.mem_append.mpr (Or.inr (List.mem_singleton.mpr rfl))
        · rw [if_neg hk] at hwe
          exact List.mem_append.mpr (Or.inl ((ih2 e).mp (hwe ▸ hw)))
      · intro hmem
        rcases List.mem_append.mp hmem with hmem | hmem
        · have hw : e ∈ buildMap rest := (ih2 e).mpr hmem
          have himg := List.mem_map_of_mem
            (fun x => if x.1 = a.1 then (a.1, a.2) else x) hw
          by_cases hk : e.1 = a.1
          · have hv : e.2 = a.2 := hf e (List.mem_append.mpr (Or.inl hmem))
              a (List.mem_append.mpr (Or.inr (List.mem_singleton.mpr rfl))) hk
            have he : e = (a.1, a.2) := by
              rw [← Prod.mk.eta (p := e), hk, hv]
            simp only [if_pos hk] at himg
            rw [he]
            exact himg
          · simp only [if_neg hk] at himg
            exact himg
        · rcases List.any_eq_true.mp hany with ⟨w, hw, hk⟩
          simp only [decide_eq_true_eq] at hk
          have himg := List.mem_map_of_mem
            (fun x => if x.1 = a.1 then (a.1, a.2) else x) hw
          simp only [if_pos hk] at himg
          rw [List.mem_singleton.mp hmem, ← Prod.mk.eta (p := a)]
          exact himg
    · rw [if_neg hany]
      constructor
      · intro hmem
        rcases List.mem_append.mp hmem with hmem | hmem
        · exact List.mem_append.mpr (Or.inl ((ih2 e).mp hmem))
        · rw [List.mem_singleton.mp hmem, Prod.mk.eta]
          exact List.mem_append.mpr (Or.inr (List.mem_singleton.mpr rfl))
      · intro hmem
        rcases List.mem_append.mp hmem with hmem | hmem
        · exact List.mem_append.mpr (Or.inl ((ih2 e).mpr hmem))
        · rw [List.mem_singleton.mp hmem, ← Prod.mk.eta (p := a)]
          exact List.mem_append.mpr (Or.inr (List.mem_singleton.mpr rfl))

/-- The dict's keys are the assigned keys, functional or not. -/
theorem mem_buildMap_keys {κ ν : Type} [DecidableEq κ] :
    ∀ (l : List (κ × ν)) (k : κ),
      ((∃ e ∈ buildMap l, e.1 = k) ↔ ∃ e ∈ l, e.1 = k) := by
  intro l
  induction l using List.reverseRecOn with
  | nil =>
    intro k
    exact Iff.rfl
  | append_singleton rest a ih =>
    intro k
    rw [buildMap_append_singleton, upsert]
    by_cases hany : (buildMap rest).any (fun x => decide (x.1 = a.1)) = true
    · rw [if_pos hany]
      constructor
      · rintro ⟨e, he, hk⟩
        rcases List.mem_map.mp he with ⟨w, hw, hwe⟩
        by_cases hkk : w.1 = a.1
        · rw [if_pos hkk] at hwe
          refine ⟨a, List.mem_append.mpr (Or.inr (List.mem_singleton.mpr rfl)), ?_⟩
          rw [← hk, ← hwe]
        · rw [if_neg hkk] at hwe
          rcases (ih k).mp ⟨w, hw, hwe ▸ hk⟩ with ⟨e2, he2, hk2⟩
          exact ⟨e2, List.mem_append.mpr (Or.inl he2), hk2⟩
      · rintro ⟨e, he, hk⟩
        rcases List.mem_append.mp he with he | he
        · rcases (ih k).mpr ⟨e, he, hk⟩ with ⟨w, hw, hk2⟩
          have himg := List.mem_map_of_mem
            (fun x => if x.1 = a.1 then (a.1, a.2) else x) hw
          by_cases hkk : w.1 = a.1
          · simp only [if_pos hkk] at himg
            exact ⟨(a.1, a.2), himg, (hkk ▸ hk2 : a.1 = k)⟩
          · simp only [if_neg hkk] at himg
            exact ⟨w, himg, hk2⟩
        · rcases List.any_eq_true.mp hany with ⟨w, hw, hkk⟩
          simp only [decide_eq_true_eq] at hkk
          have himg := List.mem_map_of_mem
            (fun x => if x.1 = a.1 then (a.1, a.2) else x) hw
          simp only [if_pos hkk] at himg
          refine ⟨(a.1, a.2), himg, ?_⟩
          rw [List.mem_singleton.mp he] at hk
          exact hk
    · rw [if_neg hany]
      constructor
      · rintro ⟨e, he, hk⟩
        rcases List.mem_append.mp he with he | he
        · rcases (ih k).mp ⟨e, he, hk⟩ with ⟨e2, he2, hk2⟩
          exact ⟨e2, List.mem_append.mpr (Or.inl he2), hk2⟩
        · refine ⟨a, List.mem_append.mpr (Or.inr (List.mem_singleton.mpr rfl)), ?_⟩
          rw [List.mem_singleton.mp he] at hk
          exact hk
      · rintro ⟨e, he, hk⟩
        rcases List.mem_append.mp he with he | he
        · rcases (ih k).mpr ⟨e, he, hk⟩ with ⟨e2, he2, hk2⟩
          exact ⟨e2, List.mem_append.mpr (Or.inl he2), hk2⟩
        · refine ⟨(a.1, a.2), List.mem_append.mpr (Or.inr (List.mem_singleton.mpr rfl)), ?_⟩
          rw [List.mem_singleton.mp he] at hk
          exact hk

/-! ### The builder's equivalence as an order-insensitive relation -/

theorem eqvGen_le {α : Type} {R S : α → α → Prop}
    (h : ∀ u v, R u v → Relation.EqvGen S u v) {x y : α}
    (hxy : Relation.EqvGen R x y) : Relation.EqvGen S x y := by
  induction hxy with
  | rel u v huv => exact h u v huv
  | refl u => exact Relation.EqvGen.refl u
  | symm u v _ ih => exact Relation.EqvGen.symm u v ih
  | trans u v w _ _ ih1 ih2 => exact Relation.EqvGen.trans u v w ih1 ih2

/-- The one-step connections the builder performs, freed of enumeration
order: a drawn wire, a point touching a wire (merged with its first
endpoint), or two points in the label dict with the same text. -/
def net_rel (d : NetData) (u v : Pt) : Prop :=
  (u, v) ∈ d.wires
    ∨ (u ∈ all_pts d ∧ ∃ w ∈ d.wires, onWireB u w = true ∧ v = w.1)
    ∨ (∃ t : String, (u, t) ∈ buildMap d.labels ∧ (v, t) ∈ buildMap d.labels)

/-- A star of edges out of a head connects every two members of the
group under the generated equivalence. -/
theorem star_connects {R : Pt → Pt → Prop} {p : Pt} {rest : List Pt}
    (hR : ∀ e ∈ star_edges (p :: rest), R e.1 e.2) {u v : Pt}
    (hu : u ∈ p :: rest) (hv : v ∈ p :: rest) : Relation.EqvGen R u v := by
  have hhead : ∀ x ∈ p :: rest, Relation.EqvGen R p x := by
    intro x hx
    rcases List.mem_cons.mp hx with hx | hx
    · rw [hx]
      exact Relation.EqvGen.refl p
    · refine Relation.EqvGen.rel p x (hR (p, x) ?_)
      rw [star_edges]
      exact List.mem_map_of_mem (fun q => (p, q)) hx
  exact Relation.EqvGen.trans u p v
    (Relation.EqvGen.symm p u (hhead u hu)) (hhead v hv)

/-- Points of a label group are exactly the dict's points with that
text. -/
theorem mem_label_groups (d : NetData) (g : String × List Pt) :
    g ∈ label_groups d
      ↔ (∃ e ∈ buildMap d.labels, e.2 = g.1)
          ∧ g.2 = ((buildMap d.labels).filter
              (fun a => decide (a.2 = g.1))).map Prod.fst := by
  rw [label_groups, groupBy_eq]
  constructor
  · intro hg
    rcases List.mem_map.mp hg with ⟨k, hk, hke⟩
    rcases (mem_keysInOrder Prod.snd k (buildMap d.labels)).mp hk with ⟨e, he, hke2⟩
    have h1 : g.1 = k := by rw [← hke]
    constructor
    · exact ⟨e, he, h1 ▸ hke2⟩
    · rw [← hke]
  · rintro ⟨⟨e, he, hke⟩, hsnd⟩
    have hk : g.1 ∈ keysInOrder Prod.snd (buildMap d.labels) :=
      (mem_keysInOrder Prod.snd g.1 (buildMap d.labels)).mpr ⟨e, he, hke⟩
    have himg := List.mem_map_of_mem
      (fun k => (k, ((buildMap d.labels).filter
        (fun a => decide (a.2 = k))).map Prod.fst)) hk
    have hge : g = (g.1, ((buildMap d.labels).filter
        (fun a => decide (a.2 = g.1))).map Prod.fst) := by
      rw [← Prod.mk.eta (p := g), hsnd]
    rw [hge]
    exact himg

/-- The star-union pass generates exactly the same-text relation on the
label dict (together with the other edges). -/
theorem eqv_edge_iff_net (d : NetData) (u v : Pt) :
    Relation.EqvGen (edgeRel (edge_list d)) u v ↔ Relation.EqvGen (net_rel d) u v := by
  constructor
  · refine eqvGen_le (fun x y hxy => ?_)
    rcases List.mem_append.mp hxy with hxy | hxy
    · rcases List.mem_append.mp hxy with hxy | hxy
      · exact Relation.EqvGen.rel x y (Or.inl hxy)
      · rcases List.mem_flatMap.mp hxy with ⟨pt, hpt, hmem⟩
        rcases List.mem_filterMap.mp hmem with ⟨w, hw, hval⟩
        by_cases hon : onWireB pt w = true
        · rw [if_pos hon] at hval
          have h1 : x = pt := congrArg Prod.fst (Option.some.inj hval).symm
          have h2 : y = w.1 := congrArg Prod.snd (Option.some.inj hval).symm
          exact Relation.EqvGen.rel x y (Or.inr (Or.inl ⟨h1 ▸ hpt, w, hw, h1 ▸ hon, h2⟩))
        · rw [if_neg hon] at hval
          cases hval
    · rcases List.mem_flatMap.mp hxy with ⟨g, hg, hmem⟩
      rcases (mem_label_groups d g).mp hg with ⟨_, hsnd⟩
      cases hpts : g.2 with
      | nil =>
        rw [hpts, star_edges] at hmem
        cases hmem
      | cons p rest =>
        rw [hpts, star_edges] at hmem
        rcases List.mem_map.mp hmem with ⟨q, hq, hqe⟩
        have hx : x = p := congrArg Prod.fst hqe.symm
        have hy : y = q := congrArg Prod.snd hqe.symm
        have hmm : ∀ z ∈ g.2, (z, g.1) ∈ buildMap d.labels := by
          intro z hz
          rw [hsnd] at hz
          rcases List.mem_map.mp hz with ⟨e, he, hez⟩
          have he2 := List.mem_of_mem_filter he
          have hef := List.of_mem_filter he
          simp only [decide_eq_true_eq] at hef
          have hze : (z, g.1) = e := by
            rw [← Prod.mk.eta (p := e), hez, hef]
          rw [hze]
          exact he2
        refine Relation.EqvGen.rel x y (Or.inr (Or.inr ⟨g.1, ?_, ?_⟩))
        · exact hx ▸ hmm p (hpts ▸ List.mem_cons_self p rest)
        · exact hy ▸ hmm q (hpts ▸ List.mem_cons.mpr (Or.inr hq))
  · refine eqvGen_le (fun x y hxy => ?_)
    rcases hxy with hxy | ⟨hx, w, hw, hon, hy⟩ | ⟨t, hx, hy⟩
    · refine Relation.EqvGen.rel x y ?_
      rw [edge_list]
      exact List.mem_append.mpr (Or.inl (List.mem_append.mpr (Or.inl hxy)))
    · refine Relation.EqvGen.rel x y ?_
      rw [edge_list]
      refine List.mem_append.mpr (Or.inl (List.mem_append.mpr (Or.inr ?_)))
      refine List.mem_flatMap.mpr ⟨x, hx, List.mem_filterMap.mpr ⟨w, hw, ?_⟩⟩
      rw [if_pos hon, hy]
    · set g : String × List Pt :=
        (t, ((buildMap d.labels).filter (fun a => decide (a.2 = t))).map Prod.fst) with hgdef
      have hg : g ∈ label_groups d := by
        refine (mem_label_groups d g).mpr ⟨⟨(x, t), hx, rfl⟩, rfl⟩
      have hxg : x ∈ g.2 :=
        List.mem_map_of_mem Prod.fst (List.mem_filter.mpr ⟨hx, by simp⟩)
      have hyg : y ∈ g.2 :=
        List.mem_map_of_mem Prod.fst (List.mem_filter.mpr ⟨hy, by simp⟩)
      cases hpts : g.2 with
      | nil =>
        rw [hpts] at hxg
        cases hxg
      | cons p rest =>
        refine star_connects (R := edgeRel (edge_list d)) ?_ (hpts ▸ hxg) (hpts ▸ hyg)
        intro e he
        rw [edge_list]
        refine List.mem_append.mpr (Or.inr (List.mem_flatMap.mpr ⟨g, hg, ?_⟩))
        rw [hpts]
        exact he

/-! ### Invariance of the visible net result under enumeration order -/

theorem mem_all_pts (d : NetData) (x : Pt) :
    x ∈ all_pts d
      ↔ x ∈ all_endpoints d.wires ∨ x ∈ d.sheetPins.map Prod.fst
          ∨ x ∈ d.labels.map Prod.fst ∨ x ∈ d.compPins.map Prod.fst
          ∨ x ∈ d.junctions := by
  rw [all_pts, List.mem_dedup]
  simp only [List.mem_append]
  rw [or_assoc, or_assoc, or_assoc]

theorem mem_all_endpoints_perm {w1 w2 : List Wire} (hw : w1.Perm w2) (x : Pt) :
    x ∈ all_endpoints w1 ↔ x ∈ all_endpoints w2 := by
  rw [all_endpoints, all_endpoints, List.mem_flatMap, List.mem_flatMap]
  exact ⟨fun ⟨w, hm, hx⟩ => ⟨w, hw.mem_iff.mp hm, hx⟩,
    fun ⟨w, hm, hx⟩ => ⟨w, hw.mem_iff.mpr hm, hx⟩⟩

theorem mem_all_pts_perm {d d2 : NetData} (hw : d.wires.Perm d2.wires)
    (hs : d.sheetPins.Perm d2.sheetPins) (hl : d.labels.Perm d2.labels)
    (hc : d.compPins.Perm d2.compPins) (hj : d.junctions.Perm d2.junctions)
    (x : Pt) : x ∈ all_pts d ↔ x ∈ all_pts d2 := by
  rw [mem_all_pts, mem_all_pts, mem_all_endpoints_perm hw,
    (hs.map Prod.fst).mem_iff, (hl.map Prod.fst).mem_iff,
    (hc.map Prod.fst).mem_iff, hj.mem_iff]

theorem net_rel_perm_mp {d d2 : NetData} (hw : d.wires.Perm d2.wires)
    (hs : d.sheetPins.Perm d2.sheetPins) (hl : d.labels.Perm d2.labels)
    (hc : d.compPins.Perm d2.compPins) (hj : d.junctions.Perm d2.junctions)
    (hfl : FunctionalOn d.labels) {u v : Pt}
    (h : net_rel d u v) : net_rel d2 u v := by
  have hfl2 : FunctionalOn d2.labels := hfl.perm hl
  rcases h with h | ⟨hu, w, hwm, hon, hv⟩ | ⟨t, hu, hv⟩
  · exact Or.inl (hw.mem_iff.mp h)
  · exact Or.inr (Or.inl ⟨(mem_all_pts_perm hw hs hl hc hj u).mp hu,
      w, hw.mem_iff.mp hwm, hon, hv⟩)
  · refine Or.inr (Or.inr ⟨t, ?_, ?_⟩)
    · exact (mem_buildMap_functional d2.labels hfl2 (u, t)).mpr
        (hl.mem_iff.mp ((mem_buildMap_functional d.labels hfl (u, t)).mp hu))
    · exact (mem_buildMap_functional d2.labels hfl2 (v, t)).mpr
        (hl.mem_iff.mp ((mem_buildMap_functional d.labels hfl (v, t)).mp hv))

theorem net_rel_perm {d d2 : NetData} (hw : d.wires.Perm d2.wires)
    (hs : d.sheetPins.Perm d2.sheetPins) (hl : d.labels.Perm d2.labels)
    (hc : d.compPins.Perm d2.compPins) (hj : d.junctions.Perm d2.junctions)
    (hfl : FunctionalOn d.labels) (u v : Pt) :
    net_rel d u v ↔ net_rel d2 u v :=
  ⟨net_rel_perm_mp hw hs hl hc hj hfl,
    net_rel_perm_mp hw.symm hs.symm hl.symm hc.symm hj.symm (hfl.perm hl)⟩

/-- The identifiers entered into `nets`, membership-wise, once the two
dicts are functional. -/
theorem mem_nets_entries_iff (d : NetData) (hfs : FunctionalOn d.sheetPins)
    (hfl : FunctionalOn d.labels) (e : Pt × String) :
    e ∈ nets_entries d
      ↔ e ∈ d.sheetPins
          ∨ ∃ t : String, (e.1, t) ∈ d.labels ∧ e.2 = "label:" ++ t := by
  rw [nets_entries, List.mem_append, mem_buildMap_functional d.sheetPins hfs]
  constructor
  · rintro (h | h)
    · exact Or.inl h
    · rcases List.mem_map.mp h with ⟨x, hx, hxe⟩
      refine Or.inr ⟨x.2, ?_, ?_⟩
      · have hfst : e.1 = x.1 := (congrArg Prod.fst hxe).symm
        rw [hfst, Prod.mk.eta]
        exact (mem_buildMap_functional d.labels hfl x).mp hx
      · exact (congrArg Prod.snd hxe).symm
  · rintro (h | ⟨t, ht, hsnd⟩)
    · exact Or.inl h
    · refine Or.inr (List.mem_map.mpr ⟨(e.1, t),
        (mem_buildMap_functional d.labels hfl (e.1, t)).mpr ht, ?_⟩)
      rw [← Prod.mk.eta (p := e), ← hsnd]

/-- `on_same_net`, characterised purely in terms of the input sequences'
membership and the order-free relation `net_rel`. -/
theorem on_same_net_sem (d : NetData) (hfs : FunctionalOn d.sheetPins)
    (hfl : FunctionalOn d.labels) (a b : String) :
    on_same_net d a b = true
      ↔ ∃ ea : Pt × String,
          (ea ∈ d.sheetPins ∨ ∃ t, (ea.1, t) ∈ d.labels ∧ ea.2 = "label:" ++ t)
          ∧ ∃ eb : Pt × String,
            (eb ∈ d.sheetPins ∨ ∃ t, (eb.1, t) ∈ d.labels ∧ eb.2 = "label:" ++ t)
            ∧ ea.2 = a ∧ eb.2 = b ∧ Relation.EqvGen (net_rel d) ea.1 eb.1 := by
  rw [on_same_net_iff]
  constructor
  · rintro ⟨ea, hea, eb, heb, h1, h2, h3⟩
    exact ⟨ea, (mem_nets_entries_iff d hfs hfl ea).mp hea,
      eb, (mem_nets_entries_iff d hfs hfl eb).mp heb, h1, h2,
      (eqv_edge_iff_net d ea.1 eb.1).mp (((uf_labels_spec d).2 ea.1 eb.1).mp h3)⟩
  · rintro ⟨ea, hea, eb, heb, h1, h2, h3⟩
    exact ⟨ea, (mem_nets_entries_iff d hfs hfl ea).mpr hea,
      eb, (mem_nets_entries_iff d hfs hfl eb).mpr heb, h1, h2,
      ((uf_labels_spec d).2 ea.1 eb.1).mpr ((eqv_edge_iff_net d ea.1 eb.1).mpr h3)⟩

/-- Permutation invariance of the visible query, given functional
dicts. -/
theorem on_same_net_perm (d d2 : NetData) (hw : d.wires.Perm d2.wires)
    (hs : d.sheetPins.Perm d2.sheetPins) (hl : d.labels.Perm d2.labels)
    (hc : d.compPins.Perm d2.compPins) (hj : d.junctions.Perm d2.junctions)
    (hfs : FunctionalOn d.sheetPins) (hfl : FunctionalOn d.labels)
    (a b : String) : on_same_net d a b = on_same_net d2 a b := by
  have hfs2 : FunctionalOn d2.sheetPins := hfs.perm hs
  have hfl2 : FunctionalOn d2.labels := hfl.perm hl
  have key : on_same_net d a b = true ↔ on_same_net d2 a b = true := by
    rw [on_same_net_sem d hfs hfl a b, on_same_net_sem d2 hfs2 hfl2 a b]
    have hmem : ∀ e : Pt × String,
        ((e ∈ d.sheetPins ∨ ∃ t, (e.1, t) ∈ d.labels ∧ e.2 = "label:" ++ t)
          ↔ (e ∈ d2.sheetPins ∨ ∃ t, (e.1, t) ∈ d2.labels ∧ e.2 = "label:" ++ t)) := by
      intro e
      rw [hs.mem_iff]
      constructor
      · rintro (h | ⟨t, ht, h2⟩)
        · exact Or.inl h
        · exact Or.inr ⟨t, hl.mem_iff.mp ht, h2⟩
      · rintro (h | ⟨t, ht, h2⟩)
        · exact Or.inl h
        · exact Or.inr ⟨t, hl.mem_iff.mpr ht, h2⟩
    have heqv : ∀ x y : Pt,
        (Relation.EqvGen (net_rel d) x y ↔ Relation.EqvGen (net_rel d2) x y) :=
      fun x y => eqvGen_congr (net_rel_perm hw hs hl hc hj hfl) x y
    constructor
    · rintro ⟨ea, hea, eb, heb, h1, h2, h3⟩
      exact ⟨ea, (hmem ea).mp hea, eb, (hmem eb).mp heb, h1, h2, (heqv ea.1 eb.1).mp h3⟩
    · rintro ⟨ea, hea, eb, heb, h1, h2, h3⟩
      exact ⟨ea, (hmem ea).mpr hea, eb, (hmem eb).mpr heb, h1, h2, (heqv ea.1 eb.1).mpr h3⟩
  by_cases h1 : on_same_net d a b = true
  · rw [h1, key.mp h1]
  · have h2 : ¬ on_same_net d2 a b = true := fun hh => h1 (key.mpr hh)
    rw [Bool.not_eq_true] at h1 h2
    rw [h1, h2]

/-! ### Remaining helper lemmas -/

/-- Same-name label points get equal representatives from `uf.find`
after the builder runs. -/
theorem label_union_root (d : NetData) (p q : Pt) (t : String)
    (hp : (p, t) ∈ buildMap d.labels) (hq : (q, t) ∈ buildMap d.labels) :
    (findUF (uf_labels d) p).2 = (findUF (uf_labels d) q).2 := by
  obtain ⟨hwf, hspec⟩ := uf_labels_spec d
  rw [(findUF_spec (uf_labels d) p hwf).2.1, (findUF_spec (uf_labels d) q hwf).2.1]
  exact (hspec p q).mpr ((eqv_edge_iff_net d p q).mpr
    (Relation.EqvGen.rel p q (Or.inr (Or.inr ⟨t, hp, hq⟩))))

theorem h_overlap_symm (w w2 : Wire) : h_overlap w w2 = h_overlap w2 w := by
  rw [h_overlap, h_overlap, Bool.and_comm (horizB w) (horizB w2),
    min_comm (max w.1.1 w.2.1) (max w2.1.1 w2.2.1),
    max_comm (min w.1.1 w.2.1) (min w2.1.1 w2.2.1),
    decide_eq_decide.mpr (eq_comm (a := snap w.1.2) (b := snap w2.1.2))]

theorem v_overlap_symm (w w2 : Wire) : v_overlap w w2 = v_overlap w2 w := by
  rw [v_overlap, v_overlap, Bool.and_comm (vertB w) (vertB w2),
    min_comm (max w.1.2 w.2.2) (max w2.1.2 w2.2.2),
    max_comm (min w.1.2 w.2.2) (min w2.1.2 w2.2.2),
    decide_eq_decide.mpr (eq_comm (a := snap w.1.1) (b := snap w2.1.1))]

theorem same_axis_overlap_symm (w w2 : Wire) :
    same_axis_overlap w w2 = same_axis_overlap w2 w := by
  rw [same_axis_overlap, same_axis_overlap, h_overlap_symm, v_overlap_symm]

theorem mem_ite_singleton {α : Type} {c : Prop} [Decidable c] (a b : α) :
    (a ∈ if c then [b] else []) ↔ c ∧ a = b := by
  by_cases h : c
  · rw [if_pos h]
    simp [h]
  · rw [if_neg h]
    simp [h]

/-- The two counters of `main`'s tally sum to the total number of
reported issues. -/
theorem tally_sum {α : Type} (rs : List (String × List α × Bool)) :
    (tally rs).1 + (tally rs).2 = (rs.map (fun r => r.2.1.length)).sum := by
  have key : ∀ (l : List (String × List α × Bool)) (t : ℕ × ℕ),
      (l.foldl (fun t r => if r.2.2 then (t.1 + r.2.1.length, t.2)
          else (t.1, t.2 + r.2.1.length)) t).1
        + (l.foldl (fun t r => if r.2.2 then (t.1 + r.2.1.length, t.2)
            else (t.1, t.2 + r.2.1.length)) t).2
        = t.1 + t.2 + (l.map (fun r => r.2.1.length)).sum := by
    intro l
    induction l with
    | nil =>
      intro t
      simp
    | cons r l ih =>
      intro t
      rw [List.foldl_cons, List.map_cons, List.sum_cons]
      by_cases h : r.2.2 = true
      · rw [if_pos h, ih]
        simp only []
        omega
      · rw [if_neg h, ih]
        simp only []
        omega
  have h0 := key rs (0, 0)
  rw [tally]
  omega

theorem sum_pos_iff (l : List ℕ) : 0 < l.sum ↔ ∃ n ∈ l, 0 < n := by
  induction l with
  | nil => simp
  | cons a l ih =>
    rw [List.sum_cons]
    constructor
    · intro h
      by_cases ha : 0 < a
      · exact ⟨a, List.mem_cons_self a l, ha⟩
      · rcases ih.mp (by omega) with ⟨n, hn, hpos⟩
        exact ⟨n, List.mem_cons.mpr (Or.inr hn), hpos⟩
    · rintro ⟨n, hn, hpos⟩
      rcases List.mem_cons.mp hn with h | hn
      · omega
      · have := ih.mpr ⟨n, hn, hpos⟩
        omega

/-! ### Fixtures: concrete inputs used by the scenario claims -/

/-- A single isolated horizontal wire and nothing else. -/
def sch1 : SchData :=
  ⟨[((0, 0), (5, 0))], [], [], [], [], [], [], [], [], (297, 210), [], [], []⟩

/-- A single diagonal wire and nothing else. -/
def sch9 : SchData :=
  ⟨[((0, 0), (5, 5))], [], [], [], [], [], [], [], [], (297, 210), [], [], []⟩

/-- Modelled from the spec: a wire endpoint (of the wire at index `i`) is
"connected" iff it coincides within the tolerance with another wire's
endpoint, a pin, a junction, a label, a no-connect marker, a sheet pin,
or the interior of another wire (T-junction). -/
def claim_connected (d : SchData) (i : ℕ) (pt : Pt) : Bool :=
  d.wires.enum.any (fun jw =>
      decide (jw.1 ≠ i) && (pts_close pt jw.2.1 || pts_close pt jw.2.2))
    || d.pin_positions.any (fun p => pts_close pt p)
    || d.junctions.any (fun p => pts_close pt p)
    || d.labels.any (fun p => pts_close pt p)
    || d.no_connects.any (fun p => pts_close pt p)
    || d.sheet_pins.any (fun p => pts_close pt p)
    || d.wires.enum.any (fun jw => decide (jw.1 ≠ i) && onWireB pt jw.2)

/-- The two overlapping horizontal wires of the C3 scenario. -/
def wiresC3 : List Wire := [((0, 0), (5, 0)), ((3, 0), (8, 0))]

/-- The one issue the C3 scenario must produce: an H overlap at Y=0,
wires 0 and 1, shared range [3, 5]. -/
def issueC3 : OverlapIssue := ⟨true, 0, 0, 0, 5, 1, 3, 8, 3, 5⟩

/-- A label wired to a sheet pin (the C4 scenario's shape). -/
def net_ram : NetData :=
  ⟨[((0, 0), (1, 0))], [((1, 0), "Byte 0:D0")], [((0, 0), "D0")], [], []⟩

/-- Two same-text labels with no wire between them. -/
def net_lbl : NetData := ⟨[], [], [((0, 0), "D0"), ((2, 0), "D0")], [], []⟩

/-- Two different labels on the same (snapped) position: the dict keeps
only the later one. -/
def net_dup1 : NetData := ⟨[], [], [((0, 0), "A"), ((0, 0), "B")], [], []⟩

/-- `net_dup1` with its two label records swapped. -/
def net_dup2 : NetData := ⟨[], [], [((0, 0), "B"), ((0, 0), "A")], [], []⟩

/-- A duplicate-free net input. -/
def net_ok1 : NetData :=
  ⟨[((0, 0), (1, 0))], [((1, 0), "P")], [((0, 0), "A"), ((3, 0), "B")], [], []⟩

/-- `net_ok1` with its two label records swapped. -/
def net_ok2 : NetData :=
  ⟨[((0, 0), (1, 0))], [((1, 0), "P")], [((3, 0), "B"), ((0, 0), "A")], [], []⟩

/-! ## The claims -/

/-- C1: code bug in `check_dangling_endpoints`.  The spec says a wire
endpoint is flagged iff it coincides with no other wire's endpoint, no
pin, junction, label, no-connect or sheet pin, and no other wire's
interior.  For a single isolated wire both endpoints satisfy none of the
spec's connection criteria (`claim_connected` is the spec's criterion),
yet the check reports nothing: the T-junction pass marks each endpoint
as connected because it lies on its own wire's inclusive span. -/
theorem dangling_endpoints_self_span_bug :
    sch1.wires = [((0, 0), (5, 0))]
      ∧ claim_connected sch1 0 (0, 0) = false
      ∧ claim_connected sch1 0 (5, 0) = false
      ∧ check_dangling_endpoints sch1 = [] :=
  ⟨rfl, by with_unfolding_all decide, by with_unfolding_all decide,
    by with_unfolding_all decide⟩

/-- C2 (corrected): `main` exits 1 iff ANY finding was produced — the
warning/error split does not matter, since it returns
`1 if total_errors + total_warnings > 0 else 0`. -/
theorem main_exit_code_any_finding {α : Type} (rs : List (String × List α × Bool)) :
    main_exit_code (tally rs).1 (tally rs).2 = 1 ↔ ∃ r ∈ rs, r.2.1 ≠ [] := by
  rw [main_exit_code]
  constructor
  · intro h
    by_cases hpos : 0 < (tally rs).1 + (tally rs).2
    · rw [tally_sum] at hpos
      rcases (sum_pos_iff _).mp hpos with ⟨n, hn, hnpos⟩
      rcases List.mem_map.mp hn with ⟨r, hr, rfl⟩
      refine ⟨r, hr, fun hnil => ?_⟩
      rw [hnil] at hnpos
      simp at hnpos
    · rw [if_neg hpos] at h
      exact absurd h (by decide)
  · rintro ⟨r, hr, hne⟩
    have hlen : 0 < r.2.1.length := List.length_pos.mpr hne
    have hpos : 0 < (tally rs).1 + (tally rs).2 := by
      rw [tally_sum]
      exact (sum_pos_iff _).mpr ⟨r.2.1.length, List.mem_map_of_mem _ hr, hlen⟩
    rw [if_pos hpos]

/-- C2, counterexample to the original claim: a result list holding one
warning-severity finding and no error still makes `main` exit 1. -/
theorem main_exit_code_warning_counterexample :
    (tally (α := ℕ) [("T-junction (no dot)", [0], false)]).1 = 0
      ∧ main_exit_code (tally (α := ℕ) [("T-junction (no dot)", [0], false)]).1
          (tally (α := ℕ) [("T-junction (no dot)", [0], false)]).2 = 1 :=
  ⟨rfl, rfl⟩

/-- C3: `check_wire_overlaps` reports exactly one issue per unordered
pair of same-axis overlapping wires (the pair criterion is symmetric, so
the pair's input order cannot add or drop a report), and on the two
horizontal wires (0,0)-(5,0) and (3,0)-(8,0) it reports exactly the one
H overlap at Y=0 with shared range [3,5]. -/
theorem wire_overlaps_pair_exact :
    (∀ wires : List Wire,
        (check_wire_overlaps wires).length = pairCount same_axis_overlap wires)
      ∧ (∀ w w2 : Wire, same_axis_overlap w w2 = same_axis_overlap w2 w)
      ∧ check_wire_overlaps wiresC3 = [issueC3] :=
  ⟨check_wire_overlaps_length, same_axis_overlap_symm, by with_unfolding_all decide⟩

/-- C4: any two points recorded in the label dict with the same text get
the same root from `uf.find` after the builder runs, and in the wired
label/sheet-pin scenario `on_same_net("label:D0", "Byte 0:D0")` is
true. -/
theorem netlist_same_label_union :
    (∀ (d : NetData) (p q : Pt) (t : String),
        (p, t) ∈ buildMap d.labels → (q, t) ∈ buildMap d.labels →
        (findUF (uf_labels d) p).2 = (findUF (uf_labels d) q).2)
      ∧ on_same_net net_ram "label:D0" "Byte 0:D0" = true :=
  ⟨label_union_root, by with_unfolding_all decide⟩

theorem netlist_same_label_union_witness :
    ((0, 0), "D0") ∈ buildMap net_lbl.labels
      ∧ ((2, 0), "D0") ∈ buildMap net_lbl.labels
      ∧ (findUF (uf_labels net_lbl) (0, 0)).2 = (findUF (uf_labels net_lbl) (2, 0)).2 :=
  ⟨by with_unfolding_all decide, by with_unfolding_all decide,
    netlist_same_label_union.1 net_lbl (0, 0) (2, 0) "D0"
      (by with_unfolding_all decide) (by with_unfolding_all decide)⟩

/-- C5 (corrected): the visible net partition is invariant under
re-enumeration of the input sequences PROVIDED the sheet-pin and label
assignment sequences are functional (one value per key).  Without that
proviso the claim fails: see the counterexample. -/
theorem net_builder_order_invariant (d d2 : NetData) (hw : d.wires.Perm d2.wires)
    (hs : d.sheetPins.Perm d2.sheetPins) (hl : d.labels.Perm d2.labels)
    (hc : d.compPins.Perm d2.compPins) (hj : d.junctions.Perm d2.junctions)
    (hfs : FunctionalOn d.sheetPins) (hfl : FunctionalOn d.labels)
    (a b : String) : on_same_net d a b = on_same_net d2 a b :=
  on_same_net_perm d d2 hw hs hl hc hj hfs hfl a b

theorem net_builder_order_invariant_witness :
    net_ok1.labels.Perm net_ok2.labels ∧ FunctionalOn net_ok1.labels
      ∧ on_same_net net_ok1 "label:A" "P" = on_same_net net_ok2 "label:A" "P" :=
  ⟨by with_unfolding_all decide, by with_unfolding_all decide,
    net_builder_order_invariant net_ok1 net_ok2 (List.Perm.refl _) (List.Perm.refl _)
      (by with_unfolding_all decide) (List.Perm.refl _) (List.Perm.refl _)
      (by with_unfolding_all decide) (by with_unfolding_all decide) "label:A" "P"⟩

/-- C5, counterexample to the unqualified claim: two enumerations of the
same label records (same multiset, swapped order) with a repeated
position key give different net memberships, because the dict built
from them keeps whichever text came last. -/
theorem net_builder_order_counterexample :
    net_dup1.wires = net_dup2.wires ∧ net_dup1.sheetPins = net_dup2.sheetPins
      ∧ net_dup1.labels.Perm net_dup2.labels
      ∧ net_dup1.compPins = net_dup2.compPins
      ∧ net_dup1.junctions = net_dup2.junctions
      ∧ on_same_net net_dup1 "label:A" "label:A" = false
      ∧ on_same_net net_dup2 "label:A" "label:A" = true :=
  ⟨rfl, rfl, by with_unfolding_all decide, rfl, rfl,
    by with_unfolding_all decide, by with_unfolding_all decide⟩

/-- C6: for a library bbox symmetric about the origin, the schematic
bbox at rotation 0 equals the one at rotation 180 (same center). -/
theorem bbox_rotation_symmetric (bb : BBox) (cx cy : ℚ)
    (hx : bb.1 = -bb.2.2.1) (hy : bb.2.1 = -bb.2.2.2) :
    lib_bbox_to_schematic bb cx cy 0 = lib_bbox_to_schematic bb cx cy 180 := by
  obtain ⟨mx, my, Mx, My⟩ := bb
  simp only at hx hy
  subst hx
  subst hy
  simp only [lib_bbox_to_schematic, cos10, sin10, List.map_cons, List.map_nil,
    listMin, listMax]
  norm_num
  refine ⟨?_, ?_, ?_, ?_⟩
  · exact inf_comm _ _
  · exact inf_comm _ _
  · exact sup_comm _ _
  · exact sup_comm _ _

theorem bbox_rotation_symmetric_witness :
    (((-2 : ℚ), (-1 : ℚ), (2 : ℚ), (1 : ℚ)) : BBox).1
        = -(((-2 : ℚ), (-1 : ℚ), (2 : ℚ), (1 : ℚ)) : BBox).2.2.1
      ∧ (((-2 : ℚ), (-1 : ℚ), (2 : ℚ), (1 : ℚ)) : BBox).2.1
          = -(((-2 : ℚ), (-1 : ℚ), (2 : ℚ), (1 : ℚ)) : BBox).2.2.2
      ∧ lib_bbox_to_schematic (((-2 : ℚ), (-1 : ℚ), (2 : ℚ), (1 : ℚ)) : BBox) 10 20 0
          = lib_bbox_to_schematic (((-2 : ℚ), (-1 : ℚ), (2 : ℚ), (1 : ℚ)) : BBox) 10 20 180 :=
  ⟨by with_unfolding_all decide, by with_unfolding_all decide,
    bbox_rotation_symmetric (((-2 : ℚ), (-1 : ℚ), (2 : ℚ), (1 : ℚ)) : BBox) 10 20
      (by with_unfolding_all decide) (by with_unfolding_all decide)⟩

/-- C7: `_wire_segment_intersects_bbox` detects strict interior
crossings only: a wire whose fixed coordinate is at or within the
tolerance of the box's min/max edge, or whose span reaches the box only
to within the tolerance of an edge, is never flagged. -/
theorem wire_bbox_strict_interior (x1 y1 x2 y2 : ℚ) (b : BBox) :
    (pabs (y1 - y2) < TOL → y1 ≤ b.2.1 + TOL →
        wire_segment_intersects_bbox x1 y1 x2 y2 b = false)
      ∧ (pabs (y1 - y2) < TOL → b.2.2.2 - TOL ≤ y1 →
          wire_segment_intersects_bbox x1 y1 x2 y2 b = false)
      ∧ (pabs (y1 - y2) < TOL → b.2.2.1 ≤ min x1 x2 + TOL →
          wire_segment_intersects_bbox x1 y1 x2 y2 b = false)
      ∧ (pabs (y1 - y2) < TOL → max x1 x2 - TOL ≤ b.1 →
          wire_segment_intersects_bbox x1 y1 x2 y2 b = false)
      ∧ (TOL ≤ pabs (y1 - y2) → pabs (x1 - x2) < TOL → x1 ≤ b.1 + TOL →
          wire_segment_intersects_bbox x1 y1 x2 y2 b = false)
      ∧ (TOL ≤ pabs (y1 - y2) → pabs (x1 - x2) < TOL → b.2.2.1 - TOL ≤ x1 →
          wire_segment_intersects_bbox x1 y1 x2 y2 b = false)
      ∧ (TOL ≤ pabs (y1 - y2) → pabs (x1 - x2) < TOL → b.2.2.2 ≤ min y1 y2 + TOL →
          wire_segment_intersects_bbox x1 y1 x2 y2 b = false)
      ∧ (TOL ≤ pabs (y1 - y2) → pabs (x1 - x2) < TOL → max y1 y2 - TOL ≤ b.2.1 →
          wire_segment_intersects_bbox x1 y1 x2 y2 b = false) := by
  refine ⟨?_, ?_, ?_, ?_, ?_, ?_, ?_, ?_⟩
  · intro h1 h2
    simp only [wire_segment_intersects_bbox]
    rw [if_pos h1, if_pos (Or.inl h2)]
  · intro h1 h2
    simp only [wire_segment_intersects_bbox]
    rw [if_pos h1, if_pos (Or.inr h2)]
  · intro h1 h2
    simp only [wire_segment_intersects_bbox]
    rw [if_pos h1]
    by_cases hc : y1 ≤ b.2.1 + TOL ∨ b.2.2.2 - TOL ≤ y1
    · rw [if_pos hc]
    · rw [if_neg hc, decide_eq_false (not_lt.mpr h2), Bool.false_and]
  · intro h1 h2
    simp only [wire_segment_intersects_bbox]
    rw [if_pos h1]
    by_cases hc : y1 ≤ b.2.1 + TOL ∨ b.2.2.2 - TOL ≤ y1
    · rw [if_pos hc]
    · rw [if_neg hc, decide_eq_false (not_lt.mpr h2), Bool.and_false]
  · intro h1 h2 h3
    simp only [wire_segment_intersects_bbox]
    rw [if_neg (not_lt.mpr h1), if_pos h2, if_pos (Or.inl h3)]
  · intro h1 h2 h3
    simp only [wire_segment_intersects_bbox]
    rw [if_neg (not_lt.mpr h1), if_pos h2, if_pos (Or.inr h3)]
  · intro h1 h2 h3
    simp only [wire_segment_intersects_bbox]
    rw [if_neg (not_lt.mpr h1), if_pos h2]
    by_cases hc : x1 ≤ b.1 + TOL ∨ b.2.2.1 - TOL ≤ x1
    · rw [if_pos hc]
    · rw [if_neg hc, decide_eq_false (not_lt.mpr h3), Bool.false_and]
  · intro h1 h2 h3
    simp only [wire_segment_intersects_bbox]
    rw [if_neg (not_lt.mpr h1), if_pos h2]
    by_cases hc : x1 ≤ b.1 + TOL ∨ b.2.2.1 - TOL ≤ x1
    · rw [if_pos hc]
    · rw [if_neg hc, decide_eq_false (not_lt.mpr h3), Bool.and_false]

theorem wire_bbox_strict_interior_witness :
    pabs ((0 : ℚ) - 0) < TOL
      ∧ (0 : ℚ) ≤ (((1 : ℚ), (0 : ℚ), (4 : ℚ), (3 : ℚ)) : BBox).2.1 + TOL
      ∧ wire_segment_intersects_bbox 0 0 5 0 (((1 : ℚ), (0 : ℚ), (4 : ℚ), (3 : ℚ)) : BBox)
          = false :=
  ⟨by with_unfolding_all decide, by with_unfolding_all decide,
    (wire_bbox_strict_interior 0 0 5 0 (((1 : ℚ), (0 : ℚ), (4 : ℚ), (3 : ℚ)) : BBox)).1
      (by with_unfolding_all decide) (by with_unfolding_all decide)⟩

/-- C8: `check_power_orientation` flags exactly the components whose
library name is "VCC" or "GND" with rotation off 0 by more than the
tolerance, one issue each, in input order. -/
theorem power_orientation_iff (components : List Comp) :
    check_power_orientation components
      = components.filterMap
          (fun c => if power_flagged c then some (power_issue_of c) else none) := by
  simp only [check_power_orientation]
  rw [check_power_orientation_acc, List.nil_append]

/-- C9: `run_all_checks` returns exactly the non-empty check results —
each check contributes iff its issue list is non-empty, carrying the
full list, no check suppressed by another — and the T-junction entry is
the only warning-severity one. -/
theorem run_all_checks_complete (d : SchData) :
    (∀ r : String × List Issue × Bool,
      r ∈ run_all_checks d
        ↔ (check_diagonal_wires d ≠ []
              ∧ r = ("Diagonal Wires", (check_diagonal_wires d).map Issue.diagonal, true))
          ∨ (check_wire_overlaps d.wires ≠ []
              ∧ r = ("Wire Overlaps (NET MERGE)",
                  (check_wire_overlaps d.wires).map Issue.overlap, true))
          ∨ (check_dangling_endpoints d ≠ []
              ∧ r = ("Dangling Endpoints",
                  (check_dangling_endpoints d).map Issue.dangling, true))
          ∨ (check_wire_through_pins d ≠ []
              ∧ r = ("Wire Through Pin",
                  (check_wire_through_pins d).map Issue.through_pin, true))
          ∨ (check_wire_through_body d ≠ []
              ∧ r = ("Wire Through Body",
                  (check_wire_through_body d).map Issue.through_body, true))
          ∨ (check_tjunctions_without_dots d ≠ []
              ∧ r = ("T-junction (no dot)",
                  (check_tjunctions_without_dots d).map Issue.tjunction, false))
          ∨ (check_wire_overlaps_pin_stub d ≠ []
              ∧ r = ("Wire Overlaps Pin Stub",
                  (check_wire_overlaps_pin_stub d).map Issue.stub, true))
          ∨ (check_component_overlap d ≠ []
              ∧ r = ("Component Overlap",
                  (check_component_overlap d).map Issue.comp_overlap, true))
          ∨ (check_content_on_sheet_blocks d ≠ []
              ∧ r = ("Content on Sheet Block",
                  (check_content_on_sheet_blocks d).map Issue.sheet_block, true))
          ∨ (check_page_boundary d ≠ []
              ∧ r = ("Outside Page Border", (check_page_boundary d).map Issue.page, true))
          ∨ (check_power_orientation d.components ≠ []
              ∧ r = ("Power Orientation",
                  (check_power_orientation d.components).map Issue.power, true)))
    ∧ ∀ r ∈ run_all_checks d,
        r.2.1 ≠ [] ∧ (r.2.2 = false ↔ r.1 = "T-junction (no dot)") := by
  have hchar : ∀ r : String × List Issue × Bool,
      r ∈ run_all_checks d
        ↔ (check_diagonal_wires d ≠ []
              ∧ r = ("Diagonal Wires", (check_diagonal_wires d).map Issue.diagonal, true))
          ∨ (check_wire_overlaps d.wires ≠ []
              ∧ r = ("Wire Overlaps (NET MERGE)",
                  (check_wire_overlaps d.wires).map Issue.overlap, true))
          ∨ (check_dangling_endpoints d ≠ []
              ∧ r = ("Dangling Endpoints",
                  (check_dangling_endpoints d).map Issue.dangling, true))
          ∨ (check_wire_through_pins d ≠ []
              ∧ r = ("Wire Through Pin",
                  (check_wire_through_pins d).map Issue.through_pin, true))
          ∨ (check_wire_through_body d ≠ []
              ∧ r = ("Wire Through Body",
                  (check_wire_through_body d).map Issue.through_body, true))
          ∨ (check_tjunctions_without_dots d ≠ []
              ∧ r = ("T-junction (no dot)",
                  (check_tjunctions_without_dots d).map Issue.tjunction, false))
          ∨ (check_wire_overlaps_pin_stub d ≠ []
              ∧ r = ("Wire Overlaps Pin Stub",
                  (check_wire_overlaps_pin_stub d).map Issue.stub, true))
          ∨ (check_component_overlap d ≠ []
              ∧ r = ("Component Overlap",
                  (check_component_overlap d).map Issue.comp_overlap, true))
          ∨ (check_content_on_sheet_blocks d ≠ []
              ∧ r = ("Content on Sheet Block",
                  (check_content_on_sheet_blocks d).map Issue.sheet_block, true))
          ∨ (check_page_boundary d ≠ []
              ∧ r = ("Outside Page Border", (check_page_boundary d).map Issue.page, true))
          ∨ (check_power_orientation d.components ≠ []
              ∧ r = ("Power Orientation",
                  (check_power_orientation d.components).map Issue.power, true)) := by
    intro r
    rw [run_all_checks]
    simp only [List.mem_append, mem_ite_singleton, or_assoc]
  refine ⟨hchar, fun r hr => ?_⟩
  rcases (hchar r).mp hr with ⟨hne, rfl⟩ | ⟨hne, rfl⟩ | ⟨hne, rfl⟩ | ⟨hne, rfl⟩
    | ⟨hne, rfl⟩ | ⟨hne, rfl⟩ | ⟨hne, rfl⟩ | ⟨hne, rfl⟩ | ⟨hne, rfl⟩ | ⟨hne, rfl⟩
    | ⟨hne, rfl⟩
  all_goals refine ⟨fun hmap => hne (List.map_eq_nil_iff.mp hmap), ?_⟩
  all_goals simp only []
  all_goals decide

theorem run_all_checks_complete_witness :
    ("Diagonal Wires", (check_diagonal_wires sch9).map Issue.diagonal, true)
        ∈ run_all_checks sch9
      ∧ (("Diagonal Wires", (check_diagonal_wires sch9).map Issue.diagonal, true)
            : String × List Issue × Bool).2.1 ≠ []
        ∧ ((("Diagonal Wires", (check_diagonal_wires sch9).map Issue.diagonal, true)
              : String × List Issue × Bool).2.2 = false
            ↔ (("Diagonal Wires", (check_diagonal_wires sch9).map Issue.diagonal, true)
                : String × List Issue × Bool).1 = "T-junction (no dot)") :=
  ⟨by with_unfolding_all decide,
    (run_all_checks_complete sch9).2 _ (by with_unfolding_all decide)⟩

/-- C10: every issue of `check_wire_overlaps` pairs two wires of the
same orientation with equal snapped shared coordinate: two horizontal
wires on one snapped Y, or two vertical wires on one snapped X. -/
theorem wire_overlaps_same_orientation (wires : List Wire) (e : OverlapIssue)
    (he : e ∈ check_wire_overlaps wires) :
    ∃ wa wb, wires[e.a_idx]? = some wa ∧ wires[e.b_idx]? = some wb
      ∧ ((e.horiz = true ∧ horizB wa = true ∧ horizB wb = true
            ∧ snap wa.1.2 = e.coord ∧ snap wb.1.2 = e.coord)
        ∨ (e.horiz = false ∧ vertB wa = true ∧ vertB wb = true
            ∧ snap wa.1.1 = e.coord ∧ snap wb.1.1 = e.coord)) := by
  rw [check_wire_overlaps] at he
  rcases List.mem_append.mp he with he | he
  · rcases check_wire_overlaps_h_side he with ⟨wa, wb, h1, h2, h3, h4, h5, h6, h7⟩
    exact ⟨wa, wb, h1, h2, Or.inl ⟨h3, h4, h5, h6, h7⟩⟩
  · rcases check_wire_overlaps_v_side he with ⟨wa, wb, h1, h2, h3, h4, h5, h6, h7⟩
    exact ⟨wa, wb, h1, h2, Or.inr ⟨h3, h4, h5, h6, h7⟩⟩

theorem wire_overlaps_same_orientation_witness :
    issueC3 ∈ check_wire_overlaps wiresC3
      ∧ ∃ wa wb, wiresC3[issueC3.a_idx]? = some wa ∧ wiresC3[issueC3.b_idx]? = some wb
          ∧ ((issueC3.horiz = true ∧ horizB wa = true ∧ horizB wb = true
                ∧ snap wa.1.2 = issueC3.coord ∧ snap wb.1.2 = issueC3.coord)
            ∨ (issueC3.horiz = false ∧ vertB wa = true ∧ vertB wb = true
                ∧ snap wa.1.1 = issueC3.coord ∧ snap wb.1.1 = issueC3.coord)) :=
  ⟨by with_unfolding_all decide,
    wire_overlaps_same_orientation wiresC3 issueC3 (by with_unfolding_all decide)⟩

end DiscreteNes
